import Mathlib

/-!
Shallow embedding of the locale-translation core of `src/index.js`:
the flatten/unflatten path codec, the incremental change detector,
the deep merge, and the verification checks, together with theorems
settling the specified properties.

Modelling conventions:
* A JavaScript JSON value is `Value`; an object is an insertion-ordered
  association list with pairwise-distinct keys (JS objects cannot hold
  duplicate keys; the operations below preserve that invariant).
* `result[key] = v` on a JS object is `setKey` (replaces in place if the
  key exists, appends otherwise, as JS property assignment does).
* `Object.assign(result, m)` is `assignList` (a `setKey` per entry of `m`).
* `JSON.stringify(a) !== JSON.stringify(b)` on values of this model is
  structural inequality: the model has no `undefined`, `NaN`, `-0`, and
  object keys keep their insertion order, so stringify is injective here.
* JS numbers on the paths exercised by the claims are integers and string
  lengths; numeric leaves are modelled as `Int`.
-/

inductive Value where
  | vnull : Value
  | vbool : Bool → Value
  | vnum : Int → Value
  | vstr : String → Value
  | varr : List Value → Value
  | vobj : List (String × Value) → Value
  deriving Repr

abbrev Fields := List (String × Value)

mutual

/-- Structural (deep) equality of values. -/
def Value.beq : Value → Value → Bool
  | .vnull, .vnull => true
  | .vbool a, .vbool b => a == b
  | .vnum a, .vnum b => a == b
  | .vstr a, .vstr b => a == b
  | .varr as, .varr bs => beqValueList as bs
  | .vobj as, .vobj bs => beqValueFields as bs
  | _, _ => false

def beqValueList : List Value → List Value → Bool
  | [], [] => true
  | a :: as, b :: bs => Value.beq a b && beqValueList as bs
  | _, _ => false

def beqValueFields : List (String × Value) → List (String × Value) → Bool
  | [], [] => true
  | (k, a) :: as, (k', b) :: bs => k == k' && Value.beq a b && beqValueFields as bs
  | _, _ => false

end

theorem value_beq_iff_aux (n : Nat) :
    (∀ a b : Value, sizeOf a < n → (Value.beq a b = true ↔ a = b)) ∧
    (∀ as bs : List Value, sizeOf as < n → (beqValueList as bs = true ↔ as = bs)) ∧
    (∀ as bs : List (String × Value), sizeOf as < n →
      (beqValueFields as bs = true ↔ as = bs)) := by
  induction n with
  | zero =>
    refine ⟨?_, ?_, ?_⟩ <;> intro a b h <;> exact absurd h (Nat.not_lt_zero _)
  | succ n ih =>
    obtain ⟨ihv, ihl, ihf⟩ := ih
    refine ⟨?_, ?_, ?_⟩
    · intro a b h
      cases a <;> cases b <;> simp [Value.beq]
      case varr.varr as bs => exact ihl as bs (by simp at h; omega)
      case vobj.vobj as bs => exact ihf as bs (by simp at h; omega)
    · intro as bs h
      cases as with
      | nil => cases bs <;> simp [beqValueList]
      | cons a as =>
        cases bs with
        | nil => simp [beqValueList]
        | cons b bs =>
          have h1 : sizeOf a < n := by simp_all; omega
          have h2 : sizeOf as < n := by simp_all; omega
          simp [beqValueList, ihv a b h1, ihl as bs h2]
    · intro as bs h
      cases as with
      | nil => cases bs <;> simp [beqValueFields]
      | cons a as =>
        cases bs with
        | nil => simp [beqValueFields]
        | cons b bs =>
          obtain ⟨k, v⟩ := a
          obtain ⟨k', w⟩ := b
          have h1 : sizeOf v < n := by simp_all; omega
          have h2 : sizeOf as < n := by simp_all; omega
          simp [beqValueFields, ihv v w h1, ihf as bs h2, and_assoc]

theorem Value.beq_iff (a b : Value) : Value.beq a b = true ↔ a = b :=
  (value_beq_iff_aux (sizeOf a + 1)).1 a b (Nat.lt_succ_self _)

instance : DecidableEq Value := fun a b =>
  decidable_of_iff (Value.beq a b = true) (Value.beq_iff a b)

/-- Keys of a JS object, in entry order. -/
def keysOf (l : Fields) : List String := l.map Prod.fst

/-- Property read `l[k]`: first (and, for genuine JS objects, only) binding. -/
def lookupKey : Fields → String → Option Value
  | [], _ => none
  | (k, v) :: rest, key => if k = key then some v else lookupKey rest key

/-- The JS `key in obj` test. -/
def hasKey (l : Fields) (k : String) : Bool := (lookupKey l k).isSome

/-- Property write `l[k] = v`: replace in place if present, else append. -/
def setKey : Fields → String → Value → Fields
  | [], k, v => [(k, v)]
  | (k', v') :: rest, k, v =>
    if k' = k then (k', v) :: rest else (k', v') :: setKey rest k v

/-- The JS `delete l[k]`. -/
def eraseKey : Fields → String → Fields
  | [], _ => []
  | (k', v') :: rest, k => if k' = k then rest else (k', v') :: eraseKey rest k

/-- The JS `Object.assign(target, m)`: one property write per entry of `m`. -/
def assignList (target : Fields) (m : Fields) : Fields :=
  m.foldl (fun acc kv => setKey acc kv.1 kv.2) target

/-- JS truthiness of a value (`NaN` is not representable in the model). -/
def truthy : Value → Bool
  | .vnull => false
  | .vbool b => b
  | .vnum n => n != 0
  | .vstr s => s != ""
  | .varr _ => true
  | .vobj _ => true

/-- The JS object spread `{...v}`: own enumerable entries of `v`.
Strings and arrays spread index-wise, other primitives contribute nothing. -/
def spreadVal : Value → Fields
  | .vobj fields => fields
  | .vstr s => (List.range s.length).zip (s.data.map (fun c => Value.vstr (String.mk [c])))
      |>.map (fun p => (toString p.1, p.2))
  | .varr xs => (List.range xs.length).zip xs |>.map (fun p => (toString p.1, p.2))
  | _ => []

/-- Dot-joining of `flattenObject`: `prefix ? prefix + "." + key : key`. -/
def joinKey (pfx : String) (k : String) : String :=
  if pfx = "" then k else pfx ++ "." ++ k

/-- The loop body of `flattenObject` from `src/index.js`: `acc` is the
`result` object under construction; a nested object (non-null, non-array)
is flattened recursively and `Object.assign`-ed in, anything else is a
leaf written at the dot-joined path. -/
def flattenAux : Fields → String → Fields → Fields
  | [], _, acc => acc
  | (k, v) :: rest, pfx, acc =>
    let newKey := joinKey pfx k
    match v with
    | .vobj sub => flattenAux rest pfx (assignList acc (flattenAux sub newKey []))
    | _ => flattenAux rest pfx (setKey acc newKey v)
  termination_by fields _ _ => sizeOf fields

/-- `flattenObject(obj, prefix)` from `src/index.js`. -/
def flattenObject (fields : Fields) (pfx : String) : Fields :=
  flattenAux fields pfx []

/-- The JS `key.split('.')` (split on every dot, keeping empty pieces). -/
def splitDotAux : List Char → List Char → List String
  | [], cur => [String.mk cur.reverse]
  | c :: rest, cur =>
    if c = '.' then String.mk cur.reverse :: splitDotAux rest []
    else splitDotAux rest (c :: cur)

def splitDot (s : String) : List String := splitDotAux s.data []

/-- One entry of the `unflattenObject` loop: split the key, walk/create
intermediate nodes, assign the last segment.  A walk step that meets a
truthy non-object keeps it (`!current[k]` is false) and the JS property
write through that primitive is silently lost (sloppy mode), so the
result is returned unchanged in that case. -/
def insertPath : Fields → List String → Value → Fields
  | result, [], _ => result
  | result, [k], v => setKey result k v
  | result, k :: k2 :: ks, v =>
    let child := match lookupKey result k with
      | some c => if truthy c then c else Value.vobj []
      | none => Value.vobj []
    match child with
    | .vobj sub => setKey result k (.vobj (insertPath sub (k2 :: ks) v))
    | _ => result

/-- `unflattenObject(obj)` from `src/index.js`. -/
def unflattenObject (flat : Fields) : Fields :=
  flat.foldl (fun result kv => insertPath result (splitDot kv.1) kv.2) []

/-- The loop of `deepMerge(target, source)` from `src/index.js`, acting on
`result = {...target}`.  A non-null non-array object value of `source`
recurses into `deepMerge(result[key] || {}, value)`; any other value is
written outright. -/
def deepMergeLoop : Fields → Fields → Fields
  | res, [] => res
  | res, (k, v) :: rest =>
    match v with
    | .vobj sub =>
      let base := match lookupKey res k with
        | some w => if truthy w then w else Value.vobj []
        | none => Value.vobj []
      deepMergeLoop (setKey res k (.vobj (deepMergeLoop (spreadVal base) sub))) rest
    | _ => deepMergeLoop (setKey res k v) rest
  termination_by _ source => sizeOf source

/-- `deepMerge(target, source)` from `src/index.js` (`source` is always an
object at every call site; `target` may be any value via the recursion). -/
def deepMerge (target : Value) (source : Fields) : Fields :=
  deepMergeLoop (spreadVal target) source

/-- `removeKeys(target, keysToRemove)` from `src/index.js`. -/
def removeKeys (target : Fields) (keysToRemove : List String) : Fields :=
  unflattenObject (keysToRemove.foldl eraseKey (flattenObject target ""))

/-- `extractKeys(obj, keys)` from `src/index.js`. -/
def extractKeys (obj : Fields) (ks : List String) : Fields :=
  let flat := flattenObject obj ""
  unflattenObject (ks.foldl
    (fun extracted k =>
      match lookupKey flat k with
      | some v => setKey extracted k v
      | none => extracted) [])

structure ChangeSet where
  added : List String
  modified : List String
  deleted : List String
  deriving DecidableEq, Repr

/-- The `JSON.stringify(oldFlat[key]) !== JSON.stringify(value)` test of
`detectChangedKeys`; stringify equality is structural equality on this
value model (see the header note). -/
def stringifyNe (o : Option Value) (v : Value) : Bool :=
  match o with
  | some w => !(Value.beq w v)
  | none => true

theorem stringifyNe_some_iff {w v : Value} : stringifyNe (some w) v = true ↔ w ≠ v := by
  have h := Value.beq_iff w v
  simp only [stringifyNe, Bool.not_eq_true']
  constructor
  · intro hf he
    rw [← h] at he
    rw [he] at hf
    exact Bool.noConfusion hf
  · intro hne
    rcases hb : Value.beq w v
    · rfl
    · exact absurd (h.mp hb) hne

/-- `detectChangedKeys(oldContent, newContent)` from `src/index.js`:
`oldContent ? flattenObject(oldContent) : {}`, then one pass over the new
flat map for added/modified and one pass over the old flat map for
deleted. -/
def detectChangedKeys (oldContent : Option Fields) (newContent : Fields) : ChangeSet :=
  let oldFlat := match oldContent with
    | some t => flattenObject t ""
    | none => []
  let newFlat := flattenObject newContent ""
  { added := (newFlat.filter (fun kv => !hasKey oldFlat kv.1)).map Prod.fst
    modified := (newFlat.filter (fun kv =>
      hasKey oldFlat kv.1 && stringifyNe (lookupKey oldFlat kv.1) kv.2)).map Prod.fst
    deleted := (oldFlat.filter (fun kv => !hasKey newFlat kv.1)).map Prod.fst }

/-! ## Verification functions -/

/-- One match attempt of the pattern at the head of the input, returning
the matched token and the remaining input.  `dd` is the i18next pattern,
`sb` the single-brace ICU pattern, `pct` printf `%s`/`%d`/`%@`, `pos`
positional printf.  On `none` the scan advances one character,
as a global regex scan does. -/
inductive Pat where
  | dd | sb | pct | pos
  deriving DecidableEq, Repr

def matchPat : Pat → List Char → Option (String × List Char)
  | .dd, '\x7b' :: '\x7b' :: rest =>
    let run := rest.takeWhile (fun c => c ≠ '\x7d')
    if run.isEmpty then none
    else match rest.drop run.length with
      | '\x7d' :: '\x7d' :: r2 => some ("\x7b\x7b" ++ String.mk run ++ "\x7d\x7d", r2)
      | _ => none
  | .sb, '\x7b' :: rest =>
    let run := rest.takeWhile (fun c => c ≠ '\x7d')
    if run.isEmpty then none
    else match rest.drop run.length with
      | '\x7d' :: r2 => some ("\x7b" ++ String.mk run ++ "\x7d", r2)
      | _ => none
  | .pct, '%' :: c :: rest =>
    if c = 's' || c = 'd' || c = '@' then some (String.mk ['%', c], rest) else none
  | .pos, '%' :: rest =>
    let digits := rest.takeWhile Char.isDigit
    if digits.isEmpty then none
    else match rest.drop digits.length with
      | '$' :: c :: r2 =>
        if c = 's' || c = 'd' then some (String.mk ('%' :: digits ++ ['$', c]), r2)
        else none
      | _ => none
  | _, _ => none

theorem matchPat_shrink' {p : Pat} {l r : List Char} {t : String}
    (h : matchPat p l = some (t, r)) : r.length < l.length := by
  unfold matchPat at h
  split at h
  -- dd
  · dsimp only at h
    split at h
    · simp at h
    · split at h
      next r2 heq =>
        have hd := congrArg List.length heq
        simp only [List.length_drop, List.length_cons] at hd
        simp only [Option.some.injEq, Prod.mk.injEq] at h
        obtain ⟨-, rfl⟩ := h
        simp only [List.length_cons]
        omega
      next => simp at h
  -- sb
  · dsimp only at h
    split at h
    · simp at h
    · split at h
      next r2 heq =>
        have hd := congrArg List.length heq
        simp only [List.length_drop, List.length_cons] at hd
        simp only [Option.some.injEq, Prod.mk.injEq] at h
        obtain ⟨-, rfl⟩ := h
        simp only [List.length_cons]
        omega
      next => simp at h
  -- pct
  · split at h
    · simp only [Option.some.injEq, Prod.mk.injEq] at h
      obtain ⟨-, rfl⟩ := h
      simp only [List.length_cons]
      omega
    · simp at h
  -- pos
  · dsimp only at h
    split at h
    · simp at h
    · split at h
      next c r2 heq =>
        have hd := congrArg List.length heq
        simp only [List.length_drop, List.length_cons] at hd
        split at h
        · simp only [Option.some.injEq, Prod.mk.injEq] at h
          obtain ⟨-, rfl⟩ := h
          simp only [List.length_cons]
          omega
        · simp at h
      next => simp at h
  -- catch-all
  · simp at h

theorem matchPat_shrink {p : Pat} {l : List Char} {x : String × List Char}
    (h : matchPat p l = some x) : x.2.length < l.length := by
  obtain ⟨t, r⟩ := x
  exact matchPat_shrink' h

def scanPatAux : Nat → Pat → List Char → List String
  | 0, _, _ => []
  | _ + 1, _, [] => []
  | fuel + 1, p, c :: rest =>
    match matchPat p (c :: rest) with
    | some x => x.1 :: scanPatAux fuel p x.2
    | none => scanPatAux fuel p rest

/-- All matches of one pattern, scanning left to right as a `/g` regex:
on a match continue after it, otherwise advance one character.  The fuel
(initially the input length) only forces structural termination; by
`matchPat_shrink` a match leaves a strictly shorter remainder, so the
fuel never runs out before the input does. -/
def scanPat (p : Pat) (l : List Char) : List String := scanPatAux l.length p l

/-- Lexicographic comparison of code-point sequences: the JS default
`Array.sort()` comparison on (BMP) strings. -/
def charListLe : List Char → List Char → Bool
  | [], _ => true
  | _ :: _, [] => false
  | a :: as, b :: bs =>
    if a.toNat < b.toNat then true
    else if b.toNat < a.toNat then false
    else charListLe as bs

def strLeB (a b : String) : Bool := charListLe a.data b.data

/-- Insertion sort with the lexicographic string order: the model of the
JS default `Array.sort()` on the placeholder tokens. -/
def insertSorted (s : String) : List String → List String
  | [] => [s]
  | t :: rest => if strLeB s t then s :: t :: rest else t :: insertSorted s rest

def sortStrings : List String → List String
  | [] => []
  | s :: rest => insertSorted s (sortStrings rest)

/-- `extractPlaceholders(str)` from `src/index.js`: empty for any
non-string input; otherwise the de-duplicated, sorted union of the
matches of the four placeholder patterns. -/
def extractPlaceholders (v : Value) : List String :=
  match v with
  | .vstr s =>
    sortStrings (List.dedup
      (scanPat .dd s.data ++ scanPat .sb s.data ++ scanPat .pct s.data ++ scanPat .pos s.data))
  | _ => []

inductive Severity where
  | error | warning
  deriving DecidableEq, Repr

inductive IssueType where
  | placeholder | missing_keys | extra_keys | length
  deriving DecidableEq, Repr

/-- Payload of an issue message; the source formats these as strings
(`Missing placeholders: ...`, `Translation is ...x longer than source`,
...), the constructor and its arguments carry the same information. -/
inductive IssueMsg where
  | missingPlaceholders (tokens : List String)
  | unexpectedPlaceholders (tokens : List String)
  | lengthLonger (r : ℚ)
  | lengthShorter (r : ℚ)
  | missingKeys (count : Nat) (sample : List String)
  | extraKeys (count : Nat) (sample : List String)
  deriving DecidableEq, Repr

structure Issue where
  key : Option String
  itype : IssueType
  severity : Severity
  message : IssueMsg
  source : Option Value
  translated : Option Value
  lang : Option String
  deriving DecidableEq, Repr

/-- `verifyPlaceholders(sourceValue, translatedValue, key)` from
`src/index.js`. -/
def verifyPlaceholders (sourceValue translatedValue : Value) (key : String) : Option Issue :=
  let sourcePlaceholders := extractPlaceholders sourceValue
  let translatedPlaceholders := extractPlaceholders translatedValue
  let missing := sourcePlaceholders.filter (fun p => !translatedPlaceholders.contains p)
  let extra := translatedPlaceholders.filter (fun p => !sourcePlaceholders.contains p)
  if missing.length > 0 ∨ extra.length > 0 then
    some { key := some key
           itype := .placeholder
           severity := .error
           message := if missing.length > 0 then .missingPlaceholders missing
                      else .unexpectedPlaceholders extra
           source := some sourceValue
           translated := some translatedValue
           lang := none }
  else none

/-- `verifyKeyConsistency(sourceKeys, translatedKeys, lang)` from
`src/index.js` (the language is interpolated into the message text in the
source; the structured issues carry no `lang` property there). -/
def verifyKeyConsistency (sourceKeys translatedKeys : List String) : List Issue :=
  let missing := sourceKeys.filter (fun k => !translatedKeys.contains k)
  let extra := translatedKeys.filter (fun k => !sourceKeys.contains k)
  (if missing.length > 0 then
    [{ key := none, itype := .missing_keys, severity := .warning
       message := .missingKeys missing.length (missing.take 5)
       source := none, translated := none, lang := none }]
   else []) ++
  (if extra.length > 0 then
    [{ key := none, itype := .extra_keys, severity := .warning
       message := .extraKeys extra.length (extra.take 5)
       source := none, translated := none, lang := none }]
   else [])

/-- `verifyLengthSanity(sourceValue, translatedValue, key)` from
`src/index.js`.  The JS number quotient is modelled as an exact rational;
the literals `5` and `0.2` become `5` and `1/5`. -/
def verifyLengthSanity (sourceValue translatedValue : Value) (key : String) : Option Issue :=
  match sourceValue, translatedValue with
  | .vstr s, .vstr t =>
    if s.length < 5 then none
    else
      let r : ℚ := (t.length : ℚ) / (s.length : ℚ)
      if r > 5 then
        some { key := some key, itype := .length, severity := .warning
               message := .lengthLonger r
               source := some (.vstr s), translated := some (.vstr t), lang := none }
      else if r < 1/5 then
        some { key := some key, itype := .length, severity := .warning
               message := .lengthShorter r
               source := some (.vstr s), translated := some (.vstr t), lang := none }
      else none
  | _, _ => none

/-- `runVerification(sourceContent, translatedContent, lang)` from
`src/index.js`: key-consistency issues first, then for every entry of the
flattened source whose key is present in the flattened translation, the
placeholder check and the length check, each issue stamped with the
language. -/
def runVerification (sourceContent translatedContent : Fields) (lang : String) : List Issue :=
  let sourceFlat := flattenObject sourceContent ""
  let translatedFlat := flattenObject translatedContent ""
  let keyIssues := verifyKeyConsistency (keysOf sourceFlat) (keysOf translatedFlat)
  keyIssues ++ sourceFlat.flatMap (fun kv =>
    match lookupKey translatedFlat kv.1 with
    | none => []
    | some translatedValue =>
      ((verifyPlaceholders kv.2 translatedValue kv.1).map
        (fun i => { i with lang := some lang })).toList ++
      ((verifyLengthSanity kv.2 translatedValue kv.1).map
        (fun i => { i with lang := some lang })).toList)

/-! ## Incremental-mode decision logic -/

/-- The result object `translateFile` returns (the fields the
orchestrator's skip/write decision reads). -/
structure TranslateResult where
  translations : List (String × Fields)
  deletedKeys : List String
  isIncremental : Bool
  changedKeyCount : Nat
  deriving Repr

/-- What the incremental branch of `translateFile` (src/index.js:598-631)
decides to do, given the parsed previous revision (`none` models both
"no previous version" and "previous version unparseable", which fall back
to full translation) and the parsed current content. -/
inductive TranslateStep where
  | skip (r : TranslateResult)
  | deleteOnly (r : TranslateResult)
  | callApi (content : Fields) (deleted : List String)
  deriving Repr

def incrementalStep (previousParsed : Option Fields) (parsedContent : Fields) : TranslateStep :=
  match previousParsed with
  | none => .callApi parsedContent []
  | some previous =>
    let changes := detectChangedKeys (some previous) parsedContent
    let keysToTranslate := changes.added ++ changes.modified
    if keysToTranslate.length = 0 ∧ changes.deleted.length = 0 then
      .skip { translations := [], deletedKeys := [], isIncremental := true, changedKeyCount := 0 }
    else if keysToTranslate.length > 0 then
      .callApi (extractKeys parsedContent keysToTranslate) changes.deleted
    else
      .deleteOnly { translations := [], deletedKeys := changes.deleted
                    isIncremental := true, changedKeyCount := 0 }

/-- Whether a step reaches the remote translation API (`callTranslateAPI`
/ `callSelfCorrectingAPI` are only reached on the `callApi` path). -/
def callsRemote : TranslateStep → Bool
  | .callApi _ _ => true
  | _ => false

/-- The orchestrator's per-file write decision (src/index.js:1018-1060):
an incremental result with no changed and no deleted keys is skipped with
`continue` before any write; otherwise files are written when there are
translations, or deleted keys are pruned when there are only deletions. -/
def orchestratorWrites (r : TranslateResult) : Bool :=
  if r.isIncremental && r.changedKeyCount == 0 && r.deletedKeys.length == 0 then false
  else if r.translations.length > 0 then true
  else if r.deletedKeys.length > 0 then true
  else false

/-! ## Association-list lemmas -/

theorem lookupKey_cons (k : String) (v : Value) (rest : Fields) (key : String) :
    lookupKey ((k, v) :: rest) key = if k = key then some v else lookupKey rest key := rfl

theorem keysOf_nil : keysOf [] = [] := rfl

theorem keysOf_cons (a : String × Value) (rest : Fields) :
    keysOf (a :: rest) = a.1 :: keysOf rest := rfl

theorem keysOf_append (a b : Fields) : keysOf (a ++ b) = keysOf a ++ keysOf b := by
  simp [keysOf]

theorem mem_keysOf_iff {l : Fields} {k : String} :
    k ∈ keysOf l ↔ ∃ v, (k, v) ∈ l := by
  simp only [keysOf, List.mem_map, Prod.exists]
  constructor
  · rintro ⟨a, b, hm, rfl⟩; exact ⟨b, hm⟩
  · rintro ⟨v, hm⟩; exact ⟨k, v, hm, rfl⟩

theorem lookupKey_eq_none_iff {l : Fields} {k : String} :
    lookupKey l k = none ↔ k ∉ keysOf l := by
  induction l with
  | nil => simp [lookupKey, keysOf]
  | cons a rest ih =>
    obtain ⟨k', v'⟩ := a
    by_cases h : k' = k
    · simp [lookupKey, keysOf_cons, h]
    · have hne : k ≠ k' := fun hh => h hh.symm
      simp [lookupKey, h, keysOf_cons, ih, hne]

theorem lookupKey_isSome_iff {l : Fields} {k : String} :
    (lookupKey l k).isSome = true ↔ k ∈ keysOf l := by
  rcases h : lookupKey l k with - | v
  · simpa [h] using lookupKey_eq_none_iff.mp h
  · simp only [Option.isSome_some, true_iff]
    by_contra hk
    rw [← lookupKey_eq_none_iff] at hk
    rw [h] at hk
    exact Option.noConfusion hk

theorem hasKey_iff_mem {l : Fields} {k : String} :
    hasKey l k = true ↔ k ∈ keysOf l := lookupKey_isSome_iff

theorem lookupKey_mem {l : Fields} {k : String} {v : Value}
    (h : lookupKey l k = some v) : (k, v) ∈ l := by
  induction l with
  | nil => simp [lookupKey] at h
  | cons a rest ih =>
    obtain ⟨k', v'⟩ := a
    by_cases hk : k' = k
    · subst hk
      simp [lookupKey] at h
      simp [h]
    · simp [lookupKey, hk] at h
      exact List.mem_cons_of_mem _ (ih h)

theorem lookupKey_of_mem_nodup {l : Fields} {k : String} {v : Value}
    (hnd : (keysOf l).Nodup) (h : (k, v) ∈ l) : lookupKey l k = some v := by
  induction l with
  | nil => simp at h
  | cons a rest ih =>
    obtain ⟨k', v'⟩ := a
    simp only [keysOf_cons, List.nodup_cons] at hnd
    rcases List.mem_cons.mp h with heq | hmem
    · obtain ⟨rfl, rfl⟩ := Prod.mk.injEq .. ▸ heq
      simp [lookupKey]
    · have hk : k' ≠ k := by
        rintro rfl
        exact hnd.1 (mem_keysOf_iff.mpr ⟨v, hmem⟩)
      simp only [lookupKey, hk, if_false]
      exact ih hnd.2 hmem

theorem keysOf_setKey (l : Fields) (k : String) (v : Value) :
    keysOf (setKey l k v) = if k ∈ keysOf l then keysOf l else keysOf l ++ [k] := by
  induction l with
  | nil => simp [setKey, keysOf]
  | cons a rest ih =>
    obtain ⟨k', v'⟩ := a
    by_cases h : k' = k
    · subst h
      simp [setKey, keysOf_cons]
    · have hne : k ≠ k' := fun hh => h hh.symm
      simp only [setKey, h, if_false, keysOf_cons, ih]
      by_cases hm : k ∈ keysOf rest
      · simp [hm, hne, keysOf_cons]
      · simp [hm, hne, keysOf_cons]

theorem keysOf_setKey_nodup {l : Fields} (hnd : (keysOf l).Nodup)
    (k : String) (v : Value) : (keysOf (setKey l k v)).Nodup := by
  rw [keysOf_setKey]
  split
  · exact hnd
  · next h => simpa [List.nodup_append] using ⟨hnd, h⟩

theorem setKey_of_not_mem {l : Fields} {k : String} (h : k ∉ keysOf l) (v : Value) :
    setKey l k v = l ++ [(k, v)] := by
  induction l with
  | nil => simp [setKey]
  | cons a rest ih =>
    obtain ⟨k', v'⟩ := a
    simp only [keysOf, List.map_cons, List.mem_cons] at h
    push_neg at h
    simp only [setKey, Ne.symm h.1, if_false, List.cons_append]
    rw [ih h.2]

theorem lookupKey_setKey_self (l : Fields) (k : String) (v : Value) :
    lookupKey (setKey l k v) k = some v := by
  induction l with
  | nil => simp [setKey, lookupKey]
  | cons a rest ih =>
    obtain ⟨k', v'⟩ := a
    by_cases h : k' = k <;> simp [setKey, lookupKey, h, ih]

theorem lookupKey_setKey_other (l : Fields) {k k' : String} (h : k ≠ k') (v : Value) :
    lookupKey (setKey l k v) k' = lookupKey l k' := by
  induction l with
  | nil => simp [setKey, lookupKey, h]
  | cons a rest ih =>
    obtain ⟨ka, va⟩ := a
    by_cases hk : ka = k
    · subst hk
      simp [setKey, lookupKey, h]
    · simp [setKey, lookupKey, hk, ih]

theorem lookupKey_append_left {a : Fields} {k : String} (b : Fields)
    (h : k ∈ keysOf a) : lookupKey (a ++ b) k = lookupKey a k := by
  induction a with
  | nil => simp [keysOf] at h
  | cons x rest ih =>
    obtain ⟨kx, vx⟩ := x
    by_cases hk : kx = k
    · simp [lookupKey, hk]
    · simp only [keysOf, List.map_cons, List.mem_cons, Ne.symm hk, false_or] at h
      simp [lookupKey, hk, ih h]

theorem lookupKey_append_right {a : Fields} {k : String} (b : Fields)
    (h : k ∉ keysOf a) : lookupKey (a ++ b) k = lookupKey b k := by
  induction a with
  | nil => simp
  | cons x rest ih =>
    obtain ⟨kx, vx⟩ := x
    simp only [keysOf, List.map_cons, List.mem_cons] at h
    push_neg at h
    simp only [List.cons_append, lookupKey, Ne.symm h.1, if_false]
    exact ih h.2

theorem assignList_nil (target : Fields) : assignList target [] = target := rfl

theorem assignList_cons (target : Fields) (kv : String × Value) (m : Fields) :
    assignList target (kv :: m) = assignList (setKey target kv.1 kv.2) m := rfl

theorem keysOf_assignList_nodup {target : Fields} (hnd : (keysOf target).Nodup)
    (m : Fields) : (keysOf (assignList target m)).Nodup := by
  induction m generalizing target with
  | nil => exact hnd
  | cons kv rest ih => exact ih (keysOf_setKey_nodup hnd kv.1 kv.2)

theorem assignList_append {m : Fields} : ∀ {target : Fields},
    (∀ kv ∈ m, kv.1 ∉ keysOf target) → (keysOf m).Nodup →
    assignList target m = target ++ m := by
  induction m with
  | nil => intro target _ _; simp [assignList]
  | cons kv rest ih =>
    intro target hfresh hnd
    obtain ⟨k, v⟩ := kv
    simp only [keysOf, List.map_cons, List.nodup_cons] at hnd
    rw [assignList_cons, setKey_of_not_mem (hfresh (k, v) (List.mem_cons_self _ _)) v]
    rw [ih ?_ hnd.2]
    · simp
    · intro kv hm
      simp only [keysOf, List.map_append, List.map_cons, List.map_nil, List.mem_append,
        List.mem_singleton]
      push_neg
      refine ⟨hfresh kv (List.mem_cons_of_mem _ hm), ?_⟩
      rintro rfl
      exact hnd.1 (mem_keysOf_iff.mpr ⟨kv.2, hm⟩)

/-! ## Flatten: basic structure -/

theorem flattenAux_nil (pfx : String) (acc : Fields) : flattenAux [] pfx acc = acc := by
  simp [flattenAux]

theorem flattenAux_cons_obj (k : String) (sub : Fields) (rest : Fields)
    (pfx : String) (acc : Fields) :
    flattenAux ((k, .vobj sub) :: rest) pfx acc =
      flattenAux rest pfx (assignList acc (flattenAux sub (joinKey pfx k) [])) := by
  simp [flattenAux]

theorem flattenAux_cons_leaf {v : Value} (hv : ∀ sub, v ≠ .vobj sub)
    (k : String) (rest : Fields) (pfx : String) (acc : Fields) :
    flattenAux ((k, v) :: rest) pfx acc =
      flattenAux rest pfx (setKey acc (joinKey pfx k) v) := by
  cases v <;> first
    | exact absurd rfl (hv _)
    | simp [flattenAux]

theorem keysOf_flattenAux_nodup :
    ∀ (fields : Fields) (pfx : String) (acc : Fields),
    (keysOf acc).Nodup → (keysOf (flattenAux fields pfx acc)).Nodup := by
  intro fields
  induction fields with
  | nil => intro pfx acc h; simpa [flattenAux_nil] using h
  | cons a rest ih =>
    intro pfx acc h
    obtain ⟨k, v⟩ := a
    match v with
    | .vobj sub =>
      rw [flattenAux_cons_obj]
      exact ih pfx _ (keysOf_assignList_nodup h _)
    | .vnull | .vbool _ | .vnum _ | .vstr _ | .varr _ =>
      rw [flattenAux_cons_leaf (by intro sub h; exact Value.noConfusion h)]
      exact ih pfx _ (keysOf_setKey_nodup h _ _)

theorem keysOf_flattenObject_nodup (fields : Fields) (pfx : String) :
    (keysOf (flattenObject fields pfx)).Nodup :=
  keysOf_flattenAux_nodup fields pfx [] (by simp [keysOf])

theorem mem_iff_lookup_nodup {l : Fields} (hnd : (keysOf l).Nodup)
    {k : String} {v : Value} : (k, v) ∈ l ↔ lookupKey l k = some v :=
  ⟨lookupKey_of_mem_nodup hnd, lookupKey_mem⟩

theorem mem_map_fst_filter {l : Fields} {pr : String × Value → Bool} {k : String} :
    (k ∈ (l.filter pr).map Prod.fst) ↔ ∃ v, (k, v) ∈ l ∧ pr (k, v) = true := by
  simp only [List.mem_map, List.mem_filter, Prod.exists]
  constructor
  · rintro ⟨a, b, ⟨hm, hp⟩, rfl⟩; exact ⟨b, hm, hp⟩
  · rintro ⟨v, hm, hp⟩; exact ⟨k, v, ⟨hm, hp⟩, rfl⟩

/-! ## Change detection: classification lemmas -/

theorem detectChangedKeys_added_iff (oldTree newTree : Fields) (p : String) :
    p ∈ (detectChangedKeys (some oldTree) newTree).added ↔
      lookupKey (flattenObject oldTree "") p = none ∧
      (lookupKey (flattenObject newTree "") p).isSome = true := by
  have hndNew := keysOf_flattenObject_nodup newTree ""
  simp only [detectChangedKeys, mem_map_fst_filter]
  constructor
  · rintro ⟨v, hm, hp⟩
    simp only [Bool.not_eq_eq_eq_not, Bool.not_true] at hp
    have : ¬ hasKey (flattenObject oldTree "") p = true := by simp [hp]
    rw [hasKey_iff_mem] at this
    rw [← lookupKey_eq_none_iff] at this
    refine ⟨this, ?_⟩
    rw [(mem_iff_lookup_nodup hndNew).mp hm]
    rfl
  · rintro ⟨hold, hnew⟩
    rcases Option.isSome_iff_exists.mp hnew with ⟨v, hv⟩
    refine ⟨v, (mem_iff_lookup_nodup hndNew).mpr hv, ?_⟩
    simp [hasKey, hold]

theorem detectChangedKeys_deleted_iff (oldTree newTree : Fields) (p : String) :
    p ∈ (detectChangedKeys (some oldTree) newTree).deleted ↔
      (lookupKey (flattenObject oldTree "") p).isSome = true ∧
      lookupKey (flattenObject newTree "") p = none := by
  have hndOld := keysOf_flattenObject_nodup oldTree ""
  simp only [detectChangedKeys, mem_map_fst_filter]
  constructor
  · rintro ⟨v, hm, hp⟩
    simp only [Bool.not_eq_eq_eq_not, Bool.not_true] at hp
    have : ¬ hasKey (flattenObject newTree "") p = true := by simp [hp]
    rw [hasKey_iff_mem] at this
    rw [← lookupKey_eq_none_iff] at this
    refine ⟨?_, this⟩
    rw [(mem_iff_lookup_nodup hndOld).mp hm]
    rfl
  · rintro ⟨hold, hnew⟩
    rcases Option.isSome_iff_exists.mp hold with ⟨v, hv⟩
    refine ⟨v, (mem_iff_lookup_nodup hndOld).mpr hv, ?_⟩
    simp [hasKey, hnew]

theorem detectChangedKeys_modified_iff (oldTree newTree : Fields) (p : String) :
    p ∈ (detectChangedKeys (some oldTree) newTree).modified ↔
      ∃ v w, lookupKey (flattenObject oldTree "") p = some v ∧
        lookupKey (flattenObject newTree "") p = some w ∧ v ≠ w := by
  have hndNew := keysOf_flattenObject_nodup newTree ""
  simp only [detectChangedKeys, mem_map_fst_filter]
  constructor
  · rintro ⟨w, hm, hp⟩
    rw [Bool.and_eq_true] at hp
    obtain ⟨hhas, hne⟩ := hp
    rcases Option.isSome_iff_exists.mp ((hasKey_iff_mem.mp hhas) |> fun hmem =>
      lookupKey_isSome_iff.mpr hmem) with ⟨v, hv⟩
    refine ⟨v, w, hv, (mem_iff_lookup_nodup hndNew).mp hm, ?_⟩
    rw [hv] at hne
    exact stringifyNe_some_iff.mp hne
  · rintro ⟨v, w, hv, hw, hvw⟩
    refine ⟨w, (mem_iff_lookup_nodup hndNew).mpr hw, ?_⟩
    rw [Bool.and_eq_true]
    constructor
    · simp [hasKey, hv]
    · rw [hv]; exact stringifyNe_some_iff.mpr hvw

/-- C1: `detectChangedKeys` classifies every dot-path as the ChangeSet
specification requires: a path is added iff absent in the old flat map
and present in the new, deleted iff present in old and absent in new,
modified iff present in both with differing values; a path present in
both with equal values is in none of the three lists; the three lists
are pairwise disjoint; and every path of the union of the two flat maps
falls into at least (hence exactly) one of added/modified/deleted/
unchanged. -/
theorem detectChangedKeys_classification (oldTree newTree : Fields) (p : String) :
    (p ∈ (detectChangedKeys (some oldTree) newTree).added ↔
      lookupKey (flattenObject oldTree "") p = none ∧
      (lookupKey (flattenObject newTree "") p).isSome = true) ∧
    (p ∈ (detectChangedKeys (some oldTree) newTree).deleted ↔
      (lookupKey (flattenObject oldTree "") p).isSome = true ∧
      lookupKey (flattenObject newTree "") p = none) ∧
    (p ∈ (detectChangedKeys (some oldTree) newTree).modified ↔
      ∃ v w, lookupKey (flattenObject oldTree "") p = some v ∧
        lookupKey (flattenObject newTree "") p = some w ∧ v ≠ w) ∧
    ((∃ v, lookupKey (flattenObject oldTree "") p = some v ∧
        lookupKey (flattenObject newTree "") p = some v) →
      p ∉ (detectChangedKeys (some oldTree) newTree).added ∧
      p ∉ (detectChangedKeys (some oldTree) newTree).modified ∧
      p ∉ (detectChangedKeys (some oldTree) newTree).deleted) ∧
    ¬(p ∈ (detectChangedKeys (some oldTree) newTree).added ∧
      p ∈ (detectChangedKeys (some oldTree) newTree).modified) ∧
    ¬(p ∈ (detectChangedKeys (some oldTree) newTree).added ∧
      p ∈ (detectChangedKeys (some oldTree) newTree).deleted) ∧
    ¬(p ∈ (detectChangedKeys (some oldTree) newTree).modified ∧
      p ∈ (detectChangedKeys (some oldTree) newTree).deleted) ∧
    (p ∈ keysOf (flattenObject oldTree "") ∨ p ∈ keysOf (flattenObject newTree "") →
      p ∈ (detectChangedKeys (some oldTree) newTree).added ∨
      p ∈ (detectChangedKeys (some oldTree) newTree).modified ∨
      p ∈ (detectChangedKeys (some oldTree) newTree).deleted ∨
      (∃ v, lookupKey (flattenObject oldTree "") p = some v ∧
        lookupKey (flattenObject newTree "") p = some v)) := by
  have ha := detectChangedKeys_added_iff oldTree newTree p
  have hd := detectChangedKeys_deleted_iff oldTree newTree p
  have hm := detectChangedKeys_modified_iff oldTree newTree p
  refine ⟨ha, hd, hm, ?_, ?_, ?_, ?_, ?_⟩
  · rintro ⟨v, hov, hnv⟩
    refine ⟨?_, ?_, ?_⟩
    · rw [ha]; rintro ⟨h1, -⟩; rw [hov] at h1; exact Option.noConfusion h1
    · rw [hm]; rintro ⟨a, b, h1, h2, hab⟩
      rw [hov] at h1; rw [hnv] at h2
      cases h1; cases h2; exact hab rfl
    · rw [hd]; rintro ⟨-, h2⟩; rw [hnv] at h2; exact Option.noConfusion h2
  · rw [ha, hm]; rintro ⟨⟨h1, -⟩, a, b, h2, -, -⟩
    rw [h1] at h2; exact Option.noConfusion h2
  · rw [ha, hd]; rintro ⟨⟨h1, -⟩, h2, -⟩
    rw [h1] at h2; simp at h2
  · rw [hm, hd]; rintro ⟨⟨a, b, -, h2, -⟩, -, h3⟩
    rw [h3] at h2; exact Option.noConfusion h2
  · intro hmem
    have hmem' : (lookupKey (flattenObject oldTree "") p).isSome = true ∨
        (lookupKey (flattenObject newTree "") p).isSome = true := by
      rcases hmem with h | h
      · exact Or.inl (lookupKey_isSome_iff.mpr h)
      · exact Or.inr (lookupKey_isSome_iff.mpr h)
    rcases ho : lookupKey (flattenObject oldTree "") p with - | v
    · rcases hn : lookupKey (flattenObject newTree "") p with - | w
      · rw [ho, hn] at hmem'; simp at hmem'
      · exact Or.inl (ha.mpr ⟨ho, by rw [hn]; rfl⟩)
    · rcases hn : lookupKey (flattenObject newTree "") p with - | w
      · exact Or.inr (Or.inr (Or.inl (hd.mpr ⟨by rw [ho]; rfl, hn⟩)))
      · by_cases hvw : v = w
        · subst hvw
          exact Or.inr (Or.inr (Or.inr ⟨v, rfl, rfl⟩))
        · exact Or.inr (Or.inl (hm.mpr ⟨v, w, ho, hn, hvw⟩))

/-- Witness for C1 at the spec's diff example: old =
`{a: {b: "hi"}, c: "x"}`, new = `{a: {b: "hello"}, d: "y"}`, at path
`a.b` (present in both flat maps with different values). -/
theorem detectChangedKeys_classification_witness :
    ("a.b" ∈ keysOf (flattenObject [("a", Value.vobj [("b", Value.vstr "hi")]),
        ("c", Value.vstr "x")] "") ∨
      "a.b" ∈ keysOf (flattenObject [("a", Value.vobj [("b", Value.vstr "hello")]),
        ("d", Value.vstr "y")] "")) ∧
    ("a.b" ∈ (detectChangedKeys
        (some [("a", Value.vobj [("b", Value.vstr "hi")]), ("c", Value.vstr "x")])
        [("a", Value.vobj [("b", Value.vstr "hello")]), ("d", Value.vstr "y")]).added ∨
      "a.b" ∈ (detectChangedKeys
        (some [("a", Value.vobj [("b", Value.vstr "hi")]), ("c", Value.vstr "x")])
        [("a", Value.vobj [("b", Value.vstr "hello")]), ("d", Value.vstr "y")]).modified ∨
      "a.b" ∈ (detectChangedKeys
        (some [("a", Value.vobj [("b", Value.vstr "hi")]), ("c", Value.vstr "x")])
        [("a", Value.vobj [("b", Value.vstr "hello")]), ("d", Value.vstr "y")]).deleted ∨
      (∃ v, lookupKey (flattenObject [("a", Value.vobj [("b", Value.vstr "hi")]),
          ("c", Value.vstr "x")] "") "a.b" = some v ∧
        lookupKey (flattenObject [("a", Value.vobj [("b", Value.vstr "hello")]),
          ("d", Value.vstr "y")] "") "a.b" = some v)) :=
  ⟨by simp [flattenObject, flattenAux, assignList, setKey, joinKey, keysOf],
   (detectChangedKeys_classification
      [("a", Value.vobj [("b", Value.vstr "hi")]), ("c", Value.vstr "x")]
      [("a", Value.vobj [("b", Value.vstr "hello")]), ("d", Value.vstr "y")]
      "a.b").2.2.2.2.2.2.2
    (by simp [flattenObject, flattenAux, assignList, setKey, joinKey, keysOf])⟩

theorem Value.beq_refl (v : Value) : Value.beq v v = true := (Value.beq_iff v v).mpr rfl

/-- C6: a path present in both trees is classified as modified by
`detectChangedKeys` exactly when the two flat-map values differ
structurally (deep equality of the value model, which includes nested
arrays and objects carried as opaque leaves); equal values are never
reported as modified.  Reference identity does not exist in the model,
so the comparison is necessarily value-based. -/
theorem detectChangedKeys_modified_structural (oldTree newTree : Fields) (k : String)
    (v w : Value) (hv : lookupKey (flattenObject oldTree "") k = some v)
    (hw : lookupKey (flattenObject newTree "") k = some w) :
    k ∈ (detectChangedKeys (some oldTree) newTree).modified ↔ v ≠ w := by
  rw [detectChangedKeys_modified_iff]
  constructor
  · rintro ⟨a, b, ha, hb, hab⟩
    rw [hv] at ha
    rw [hw] at hb
    cases ha
    cases hb
    exact hab
  · intro h
    exact ⟨v, w, hv, hw, h⟩

/-- Witness for C6: nested arrays as opaque leaves; `[1, {x: "s"}]`
versus `[2, {x: "s"}]` at path `k` is modified, per the classification
theorem instantiated at those lookups. -/
theorem detectChangedKeys_modified_structural_witness :
    ("k" ∈ (detectChangedKeys
        (some [("k", Value.varr [Value.vnum 1, Value.vobj [("x", Value.vstr "s")]])])
        [("k", Value.varr [Value.vnum 2, Value.vobj [("x", Value.vstr "s")]])]).modified ↔
      Value.varr [Value.vnum 1, Value.vobj [("x", Value.vstr "s")]] ≠
        Value.varr [Value.vnum 2, Value.vobj [("x", Value.vstr "s")]]) :=
  detectChangedKeys_modified_structural
    [("k", Value.varr [Value.vnum 1, Value.vobj [("x", Value.vstr "s")]])]
    [("k", Value.varr [Value.vnum 2, Value.vobj [("x", Value.vstr "s")]])]
    "k" _ _
    (by simp [flattenObject, flattenAux, setKey, joinKey, lookupKey])
    (by simp [flattenObject, flattenAux, setKey, joinKey, lookupKey])

theorem detectChangedKeys_self (t : Fields) :
    detectChangedKeys (some t) t = ⟨[], [], []⟩ := by
  have hnd := keysOf_flattenObject_nodup t ""
  simp only [detectChangedKeys, ChangeSet.mk.injEq]
  refine ⟨?_, ?_, ?_⟩ <;>
    · rw [List.map_eq_nil, List.filter_eq_nil]
      rintro ⟨k, v⟩ hm
      have hl := lookupKey_of_mem_nodup hnd hm
      simp [hasKey, hl, stringifyNe, Value.beq_refl]

/-- C5: when the incremental diff of the previous and current source
trees is empty, `translateFile` takes the skip path (returning the empty
incremental result before any call to the translation API) and the
orchestrator performs no write for that file; and the diff of a tree
against itself is always empty, so a second run over an unchanged source
calls no remote API and writes nothing. -/
theorem incremental_empty_diff_skips :
    (∀ prev cur : Fields,
      detectChangedKeys (some prev) cur = ⟨[], [], []⟩ →
      incrementalStep (some prev) cur =
        .skip ⟨[], [], true, 0⟩ ∧
      callsRemote (incrementalStep (some prev) cur) = false ∧
      orchestratorWrites ⟨[], [], true, 0⟩ = false) ∧
    (∀ t : Fields, detectChangedKeys (some t) t = ⟨[], [], []⟩) := by
  constructor
  · intro prev cur h
    have hstep : incrementalStep (some prev) cur = .skip ⟨[], [], true, 0⟩ := by
      simp only [incrementalStep, h]
      simp
    refine ⟨hstep, ?_, ?_⟩
    · rw [hstep]
      simp [callsRemote]
    · simp [orchestratorWrites]
  · exact detectChangedKeys_self

/-- Witness for C5: a concrete unchanged source file `{a: "x"}`; the
self-diff conjunct of the theorem discharges the empty-diff hypothesis. -/
theorem incremental_empty_diff_skips_witness :
    incrementalStep (some [("a", Value.vstr "x")]) [("a", Value.vstr "x")] =
      .skip ⟨[], [], true, 0⟩ ∧
    callsRemote (incrementalStep (some [("a", Value.vstr "x")]) [("a", Value.vstr "x")]) = false ∧
    orchestratorWrites ⟨[], [], true, 0⟩ = false :=
  incremental_empty_diff_skips.1 [("a", Value.vstr "x")] [("a", Value.vstr "x")]
    (incremental_empty_diff_skips.2 [("a", Value.vstr "x")])

/-- C7: for string/string pairs with source length at least 5, the
length-sanity check emits a warning-severity issue exactly when the
rational length ratio is strictly above 5 or strictly below 1/5 (the JS
`0.2`); a ratio of exactly 5 emits nothing, and source strings shorter
than 5 characters are always exempt. -/
theorem verifyLengthSanity_boundaries :
    (∀ (s t : String) (k : String), 5 ≤ s.length →
      (((verifyLengthSanity (.vstr s) (.vstr t) k).isSome = true ↔
        ((t.length : ℚ) / (s.length : ℚ) > 5 ∨ (t.length : ℚ) / (s.length : ℚ) < 1/5)) ∧
      (∀ i, verifyLengthSanity (.vstr s) (.vstr t) k = some i →
        i.severity = .warning ∧ i.itype = .length ∧ i.key = some k) ∧
      ((t.length : ℚ) / (s.length : ℚ) = 5 →
        verifyLengthSanity (.vstr s) (.vstr t) k = none))) ∧
    (∀ (s t : String) (k : String), s.length < 5 →
      verifyLengthSanity (.vstr s) (.vstr t) k = none) := by
  constructor
  · intro s t k hlen
    have hnotlt : ¬ s.length < 5 := by omega
    refine ⟨?_, ?_, ?_⟩
    · simp only [verifyLengthSanity, hnotlt, if_false]
      by_cases h1 : (t.length : ℚ) / (s.length : ℚ) > 5
      · simp [h1]
      · simp only [h1, if_false]
        by_cases h2 : (t.length : ℚ) / (s.length : ℚ) < 1/5
        · simp [h2, h1]
        · simp [h1, h2]
    · intro i hi
      simp only [verifyLengthSanity, hnotlt, if_false] at hi
      split at hi
      · cases hi; exact ⟨rfl, rfl, rfl⟩
      · split at hi
        · cases hi; exact ⟨rfl, rfl, rfl⟩
        · exact Option.noConfusion hi
    · intro h5
      have h1 : ¬ (t.length : ℚ) / (s.length : ℚ) > 5 := by rw [h5]; norm_num
      have h2 : ¬ (t.length : ℚ) / (s.length : ℚ) < 1/5 := by rw [h5]; norm_num
      simp only [verifyLengthSanity, hnotlt, if_false]
      rw [if_neg h1, if_neg h2]
  · intro s t k hlen
    simp [verifyLengthSanity, hlen]

/-- Witness for C7 at the spec's boundary example: source of length 10,
translation of length 60 (ratio 6, an issue) — and the exact-ratio-5
clause instantiated with a translation of length 50 (no issue). -/
theorem verifyLengthSanity_boundaries_witness :
    ((verifyLengthSanity (.vstr "abcdefghij")
        (.vstr "abcdefghijabcdefghijabcdefghijabcdefghijabcdefghijabcdefghij")
        "k").isSome = true ↔
      ((60 : ℚ) / (10 : ℚ) > 5 ∨ (60 : ℚ) / (10 : ℚ) < 1/5)) ∧
    verifyLengthSanity (.vstr "abcdefghij")
      (.vstr "abcdefghijabcdefghijabcdefghijabcdefghijabcdefghij") "k" = none := by
  have hs : ("abcdefghij" : String).length = 10 := by decide
  have ht60 :
      ("abcdefghijabcdefghijabcdefghijabcdefghijabcdefghijabcdefghij" : String).length = 60 := by
    decide
  have ht50 :
      ("abcdefghijabcdefghijabcdefghijabcdefghijabcdefghij" : String).length = 50 := by decide
  constructor
  · have h := ((verifyLengthSanity_boundaries.1 "abcdefghij"
      "abcdefghijabcdefghijabcdefghijabcdefghijabcdefghijabcdefghij" "k")
      (by rw [hs]; omega)).1
    rw [hs, ht60] at h
    exact_mod_cast h
  · exact ((verifyLengthSanity_boundaries.1 "abcdefghij"
      "abcdefghijabcdefghijabcdefghijabcdefghijabcdefghij" "k")
      (by rw [hs]; omega)).2.2 (by rw [hs, ht50]; norm_num)

/-! ## Deep merge -/

/-- The JS `x || {}` on the looked-up value (absent/falsy becomes `{}`). -/
def jsOr : Option Value → Value
  | some w => if truthy w then w else .vobj []
  | none => .vobj []

theorem deepMergeLoop_nil (res : Fields) : deepMergeLoop res [] = res := by
  simp [deepMergeLoop]

theorem deepMergeLoop_cons_obj (res : Fields) (k : String) (sub rest : Fields) :
    deepMergeLoop res ((k, .vobj sub) :: rest) =
      deepMergeLoop
        (setKey res k (.vobj (deepMergeLoop (spreadVal (jsOr (lookupKey res k))) sub)))
        rest := by
  simp only [deepMergeLoop]
  rcases lookupKey res k with - | w <;> simp [jsOr]

theorem deepMergeLoop_cons_leaf {v : Value} (hv : ∀ sub, v ≠ .vobj sub)
    (res : Fields) (k : String) (rest : Fields) :
    deepMergeLoop res ((k, v) :: rest) = deepMergeLoop (setKey res k v) rest := by
  cases v <;> first
    | exact absurd rfl (hv _)
    | simp [deepMergeLoop]

theorem deepMergeLoop_lookup_not_mem :
    ∀ (source res : Fields) (k : String), k ∉ keysOf source →
    lookupKey (deepMergeLoop res source) k = lookupKey res k := by
  intro source
  induction source with
  | nil => intro res k _; rw [deepMergeLoop_nil]
  | cons a rest ih =>
    intro res k hk
    obtain ⟨k0, v0⟩ := a
    simp only [keysOf_cons, List.mem_cons] at hk
    push_neg at hk
    have hne : k0 ≠ k := fun h => hk.1 h.symm
    match v0 with
    | .vobj sub =>
      rw [deepMergeLoop_cons_obj, ih _ k hk.2, lookupKey_setKey_other _ hne]
    | .vnull | .vbool _ | .vnum _ | .vstr _ | .varr _ =>
      rw [deepMergeLoop_cons_leaf (by intro s h; exact Value.noConfusion h),
        ih _ k hk.2, lookupKey_setKey_other _ hne]

theorem deepMergeLoop_lookup :
    ∀ (source res : Fields) (k : String), (keysOf source).Nodup →
    lookupKey (deepMergeLoop res source) k =
      match lookupKey source k with
      | none => lookupKey res k
      | some (.vobj sub) =>
        some (.vobj (deepMergeLoop (spreadVal (jsOr (lookupKey res k))) sub))
      | some v => some v := by
  intro source
  induction source with
  | nil => intro res k _; simp [deepMergeLoop_nil, lookupKey]
  | cons a rest ih =>
    intro res k hnd
    obtain ⟨k0, v0⟩ := a
    simp only [keysOf_cons, List.nodup_cons] at hnd
    by_cases hk : k0 = k
    · subst hk
      have hsrc : lookupKey ((k0, v0) :: rest) k0 = some v0 := by simp [lookupKey]
      rw [hsrc]
      match v0 with
      | .vobj sub =>
        rw [deepMergeLoop_cons_obj, deepMergeLoop_lookup_not_mem rest _ k0 hnd.1,
          lookupKey_setKey_self]
      | .vnull | .vbool _ | .vnum _ | .vstr _ | .varr _ =>
        rw [deepMergeLoop_cons_leaf (by intro s h; exact Value.noConfusion h),
          deepMergeLoop_lookup_not_mem rest _ k0 hnd.1, lookupKey_setKey_self]
    · have hne : k0 ≠ k := hk
      have hsrc : lookupKey ((k0, v0) :: rest) k = lookupKey rest k := by
        simp [lookupKey, hk]
      rw [hsrc]
      match v0 with
      | .vobj sub =>
        rw [deepMergeLoop_cons_obj, ih _ k hnd.2, lookupKey_setKey_other _ hne]
      | .vnull | .vbool _ | .vnum _ | .vstr _ | .varr _ =>
        rw [deepMergeLoop_cons_leaf (by intro s h; exact Value.noConfusion h),
          ih _ k hnd.2, lookupKey_setKey_other _ hne]

/-- Counterexample for C2 as stated.  With existing = `{b: "x"}` and
incoming = `{b: {c: "1"}}` the pair at `b` is not two mappings, so the
claim says incoming wins outright and the result is `{b: {c: "1"}}`;
the code instead recurses into `deepMerge("x", {c: "1"})`, whose spread
of the string `"x"` contributes an index entry, yielding
`{b: {0: "x", c: "1"}}`. -/
theorem deepMerge_typeclash_counterexample :
    deepMerge (.vobj [("b", Value.vstr "x")]) [("b", Value.vobj [("c", Value.vstr "1")])] =
      [("b", Value.vobj [("0", Value.vstr "x"), ("c", Value.vstr "1")])] ∧
    deepMerge (.vobj [("b", Value.vstr "x")]) [("b", Value.vobj [("c", Value.vstr "1")])] ≠
      [("b", Value.vobj [("c", Value.vstr "1")])] := by
  have hsp : spreadVal (Value.vstr "x") = [("0", Value.vstr "x")] := rfl
  have h : deepMerge (.vobj [("b", Value.vstr "x")])
      [("b", Value.vobj [("c", Value.vstr "1")])] =
      [("b", Value.vobj [("0", Value.vstr "x"), ("c", Value.vstr "1")])] := by
    rw [deepMerge]
    rw [show spreadVal (Value.vobj [("b", Value.vstr "x")]) = [("b", Value.vstr "x")] from rfl]
    rw [deepMergeLoop_cons_obj]
    rw [show lookupKey [("b", Value.vstr "x")] "b" = some (Value.vstr "x") from by
      simp [lookupKey]]
    rw [show jsOr (some (Value.vstr "x")) = Value.vstr "x" from by simp [jsOr, truthy]]
    rw [hsp]
    rw [deepMergeLoop_cons_leaf (by intro s h; exact Value.noConfusion h)]
    rw [deepMergeLoop_nil, deepMergeLoop_nil]
    simp [setKey]
  refine ⟨h, ?_⟩
  rw [h]
  simp

/-- C2, amended to what the code does: for every key of `incoming`, if
`incoming[key]` is a mapping the merge recurses on
`existing[key] || {}` (spread object-wise when it is a truthy
non-mapping) and `incoming[key]`; if `incoming[key]` is not a mapping it
wins outright; keys present only in `existing` are preserved untouched —
in particular, when both sides hold mappings the merge recurses on them,
and `deepMerge({a: "1", b: "2"}, {b: "3"}) = {a: "1", b: "3"}`. -/
theorem deepMerge_lookup_characterization :
    (∀ (target source : Fields) (k : String), (keysOf source).Nodup →
      lookupKey (deepMerge (.vobj target) source) k =
        match lookupKey source k with
        | none => lookupKey target k
        | some (.vobj sub) =>
          some (.vobj (deepMerge (jsOr (lookupKey target k)) sub))
        | some v => some v) ∧
    deepMerge (.vobj [("a", Value.vstr "1"), ("b", Value.vstr "2")]) [("b", Value.vstr "3")]
      = [("a", Value.vstr "1"), ("b", Value.vstr "3")] := by
  constructor
  · intro target source k hnd
    have h := deepMergeLoop_lookup source target k hnd
    rw [show deepMerge (.vobj target) source = deepMergeLoop target source from rfl]
    rw [h]
    rcases lookupKey source k with - | w
    · rfl
    · cases w <;> rfl
  · rw [deepMerge]
    rw [show spreadVal (Value.vobj [("a", Value.vstr "1"), ("b", Value.vstr "2")]) =
      [("a", Value.vstr "1"), ("b", Value.vstr "2")] from rfl]
    rw [deepMergeLoop_cons_leaf (by intro s h; exact Value.noConfusion h), deepMergeLoop_nil]
    simp [setKey]

/-- Witness for the amended C2 at existing = `{a: "1"}`,
incoming = `{b: {c: "2"}}`, key `b`. -/
theorem deepMerge_lookup_characterization_witness :
    lookupKey (deepMerge (.vobj [("a", Value.vstr "1")])
        [("b", Value.vobj [("c", Value.vstr "2")])]) "b" =
      match lookupKey [("b", Value.vobj [("c", Value.vstr "2")])] "b" with
      | none => lookupKey [("a", Value.vstr "1")] "b"
      | some (.vobj sub) =>
        some (.vobj (deepMerge (jsOr (lookupKey [("a", Value.vstr "1")] "b")) sub))
      | some v => some v :=
  deepMerge_lookup_characterization.1 [("a", Value.vstr "1")]
    [("b", Value.vobj [("c", Value.vstr "2")])] "b" (by simp [keysOf])

/-! ## Empty mappings are dropped by the flatten codec -/

theorem flattenAux_empty_obj_entry :
    ∀ (pre : Fields) (k : String) (post : Fields) (pfx : String) (acc : Fields),
    flattenAux (pre ++ (k, Value.vobj []) :: post) pfx acc = flattenAux (pre ++ post) pfx acc := by
  intro pre
  induction pre with
  | nil =>
    intro k post pfx acc
    simp only [List.nil_append]
    rw [flattenAux_cons_obj, flattenAux_nil, assignList_nil]
  | cons a pre ih =>
    intro k post pfx acc
    obtain ⟨k', v'⟩ := a
    simp only [List.cons_append]
    match v' with
    | .vobj sub =>
      rw [flattenAux_cons_obj, flattenAux_cons_obj, ih]
    | .vnull | .vbool _ | .vnum _ | .vstr _ | .varr _ =>
      rw [flattenAux_cons_leaf (by intro s h; exact Value.noConfusion h),
        flattenAux_cons_leaf (by intro s h; exact Value.noConfusion h), ih]

/-- C9: `flattenObject` emits no entry for an empty-mapping subtree (an
entry whose value is `{}` flattens exactly as if it were absent), so the
operations routed through flatten/unflatten silently drop empty mapping
nodes: the flatten/unflatten round trip erases `{a: {}}`, `extractKeys`
drops an empty mapping sibling, and `removeKeys({a: {b: "1"}}, ["a.b"])`
returns `{}` rather than `{a: {}}` — deleting the last leaf under a
mapping removes the whole ancestor node. -/
theorem flatten_drops_empty_mappings :
    (∀ (pre : Fields) (k : String) (post : Fields) (pfx : String) (acc : Fields),
      flattenAux (pre ++ (k, Value.vobj []) :: post) pfx acc =
        flattenAux (pre ++ post) pfx acc) ∧
    removeKeys [("a", Value.vobj [("b", Value.vstr "1")])] ["a.b"] = [] ∧
    extractKeys [("a", Value.vobj []), ("c", Value.vstr "2")] ["c"] = [("c", Value.vstr "2")] ∧
    unflattenObject (flattenObject [("a", Value.vobj [])] "") = [] := by
  have hf1 : flattenObject [("a", Value.vobj [("b", Value.vstr "1")])] ""
      = [("a.b", Value.vstr "1")] := by
    simp [flattenObject, flattenAux, assignList, setKey, joinKey]
  have hf2 : flattenObject [("a", Value.vobj []), ("c", Value.vstr "2")] ""
      = [("c", Value.vstr "2")] := by
    simp [flattenObject, flattenAux, assignList, setKey, joinKey]
  have hf3 : flattenObject [("a", Value.vobj [])] "" = [] := by
    simp [flattenObject, flattenAux, assignList]
  refine ⟨flattenAux_empty_obj_entry, ?_, ?_, ?_⟩
  · simp only [removeKeys, hf1]
    rfl
  · simp only [extractKeys, hf2]
    rfl
  · rw [hf3]
    rfl

/-! ## Placeholder check lemmas -/

theorem mem_insertSorted {x s : String} {l : List String} :
    x ∈ insertSorted s l ↔ x = s ∨ x ∈ l := by
  induction l with
  | nil => simp [insertSorted]
  | cons t rest ih =>
    simp only [insertSorted]
    split
    · simp
    · rw [List.mem_cons, ih, List.mem_cons]
      tauto

theorem mem_sortStrings {x : String} {l : List String} : x ∈ sortStrings l ↔ x ∈ l := by
  induction l with
  | nil => simp [sortStrings]
  | cons s rest ih => simp [sortStrings, mem_insertSorted, ih]

theorem filter_not_contains_eq_nil {A B : List String} :
    A.filter (fun p => !B.contains p) = [] ↔ ∀ x ∈ A, x ∈ B := by
  rw [List.filter_eq_nil]
  constructor
  · intro h x hx
    have hc := h x hx
    simp only [Bool.not_eq_true', Bool.not_eq_false] at hc
    exact List.elem_iff.mp hc
  · intro h x hx
    simp only [Bool.not_eq_true', Bool.not_eq_false]
    exact List.elem_iff.mpr (h x hx)

theorem filter_not_contains_ne_nil {A B : List String}
    (h : A.filter (fun p => !B.contains p) ≠ []) : ∃ x ∈ A, x ∉ B := by
  rw [Ne, List.filter_eq_nil] at h
  push_neg at h
  obtain ⟨x, hx, hc⟩ := h
  refine ⟨x, hx, ?_⟩
  simp only [Bool.not_eq_true', Bool.not_eq_false, Bool.not_eq_true] at hc
  intro hmem
  have ht : B.contains x = true := List.elem_iff.mpr hmem
  rw [ht] at hc
  exact Bool.noConfusion hc

theorem verifyPlaceholders_none_iff (sv tv : Value) (k : String) :
    verifyPlaceholders sv tv k = none ↔
      (extractPlaceholders sv).filter (fun p => !(extractPlaceholders tv).contains p) = [] ∧
      (extractPlaceholders tv).filter (fun p => !(extractPlaceholders sv).contains p) = [] := by
  simp only [verifyPlaceholders]
  split
  · next hcond =>
    simp only [reduceCtorEq, false_iff]
    rintro ⟨hM, hE⟩
    rcases hcond with h | h
    · rw [hM] at h; simp at h
    · rw [hE] at h; simp at h
  · next hcond =>
    push_neg at hcond
    obtain ⟨hM, hE⟩ := hcond
    simp only [Nat.not_lt, Nat.le_zero] at hM hE
    rw [List.length_eq_zero] at hM hE
    exact iff_of_true rfl ⟨hM, hE⟩

theorem verifyPlaceholders_some_char (sv tv : Value) (k : String) (i : Issue)
    (h : verifyPlaceholders sv tv k = some i) :
    i.severity = .error ∧ i.itype = .placeholder ∧ i.key = some k ∧
    ((extractPlaceholders sv).filter (fun p => !(extractPlaceholders tv).contains p) ≠ [] →
      i.message = .missingPlaceholders
        ((extractPlaceholders sv).filter (fun p => !(extractPlaceholders tv).contains p))) ∧
    ((extractPlaceholders sv).filter (fun p => !(extractPlaceholders tv).contains p) = [] →
      i.message = .unexpectedPlaceholders
        ((extractPlaceholders tv).filter (fun p => !(extractPlaceholders sv).contains p))) := by
  simp only [verifyPlaceholders] at h
  split at h
  · next hcond =>
    rw [Option.some_inj] at h
    subst h
    refine ⟨rfl, rfl, rfl, ?_, ?_⟩
    · intro hM
      have : 0 < ((extractPlaceholders sv).filter
          (fun p => !(extractPlaceholders tv).contains p)).length :=
        List.length_pos.mpr hM
      simp only [this, if_pos]
    · intro hM
      have : ¬ 0 < ((extractPlaceholders sv).filter
          (fun p => !(extractPlaceholders tv).contains p)).length := by
        rw [hM]; simp
      simp only [this, if_false]
  · exact Option.noConfusion h

/-- C4: for string source and translation, the placeholder check raises
an issue iff the two extracted placeholder token sets differ (membership
comparison — order and multiplicity are irrelevant, the extracted lists
are deduplicated and sorted); the single issue (the check returns at most
one issue per key, an `Option`) has error severity and carries the key;
its message names the missing tokens whenever some source token is
missing from the translation (prioritised over extra tokens), and names
the unexpected tokens when only extra tokens occur. -/
theorem verifyPlaceholders_set_comparison (s t k : String) :
    ((verifyPlaceholders (.vstr s) (.vstr t) k).isSome = true ↔
      ¬ (∀ x, x ∈ extractPlaceholders (.vstr s) ↔ x ∈ extractPlaceholders (.vstr t))) ∧
    (∀ i, verifyPlaceholders (.vstr s) (.vstr t) k = some i →
      i.severity = .error ∧ i.itype = .placeholder ∧ i.key = some k ∧
      ((extractPlaceholders (.vstr s)).filter
          (fun p => !(extractPlaceholders (.vstr t)).contains p) ≠ [] →
        i.message = .missingPlaceholders ((extractPlaceholders (.vstr s)).filter
          (fun p => !(extractPlaceholders (.vstr t)).contains p))) ∧
      ((extractPlaceholders (.vstr s)).filter
          (fun p => !(extractPlaceholders (.vstr t)).contains p) = [] →
        i.message = .unexpectedPlaceholders ((extractPlaceholders (.vstr t)).filter
          (fun p => !(extractPlaceholders (.vstr s)).contains p)))) := by
  have hnone := verifyPlaceholders_none_iff (.vstr s) (.vstr t) k
  constructor
  · constructor
    · intro hsome hall
      have hn : verifyPlaceholders (.vstr s) (.vstr t) k = none :=
        hnone.mpr ⟨filter_not_contains_eq_nil.mpr (fun x hx => (hall x).mp hx),
          filter_not_contains_eq_nil.mpr (fun x hx => (hall x).mpr hx)⟩
      rw [hn] at hsome
      exact Bool.noConfusion hsome
    · intro hne
      rcases hs : verifyPlaceholders (.vstr s) (.vstr t) k with - | i
      · exfalso
        apply hne
        obtain ⟨hM, hE⟩ := hnone.mp hs
        intro x
        exact ⟨fun hx => filter_not_contains_eq_nil.mp hM x hx,
          fun hx => filter_not_contains_eq_nil.mp hE x hx⟩
      · rfl
  · intro i hi
    exact verifyPlaceholders_some_char _ _ _ _ hi

/-- Witness for C4 at the spec's failing example: source
`"Hello {{name}}"`, translation `"Hola"`; the token sets differ, the
check fires, and the concrete issue carries the missing tokens. -/
theorem verifyPlaceholders_set_comparison_witness :
    ((verifyPlaceholders (.vstr "Hello \x7b\x7bname\x7d\x7d") (.vstr "Hola")
      "greeting").isSome = true) ∧
    (∀ i, verifyPlaceholders (.vstr "Hello \x7b\x7bname\x7d\x7d") (.vstr "Hola")
        "greeting" = some i →
      i.severity = .error ∧
      i.message = .missingPlaceholders ["\x7b\x7bname\x7d", "\x7b\x7bname\x7d\x7d"]) := by
  have h := verifyPlaceholders_set_comparison "Hello \x7b\x7bname\x7d\x7d" "Hola" "greeting"
  constructor
  · refine h.1.mpr ?_
    intro hall
    have hmem : "\x7b\x7bname\x7d\x7d" ∈ extractPlaceholders
        (.vstr "Hello \x7b\x7bname\x7d\x7d") := by decide
    have : "\x7b\x7bname\x7d\x7d" ∈ extractPlaceholders (.vstr "Hola") :=
      (hall "\x7b\x7bname\x7d\x7d").mp hmem
    revert this
    decide
  · intro i hi
    have hc := h.2 i hi
    refine ⟨hc.1, ?_⟩
    have hMne : (extractPlaceholders (.vstr "Hello \x7b\x7bname\x7d\x7d")).filter
        (fun p => !(extractPlaceholders (.vstr "Hola")).contains p) ≠ [] := by decide
    have hmsg := hc.2.2.2.1 hMne
    rw [hmsg]
    have : (extractPlaceholders (.vstr "Hello \x7b\x7bname\x7d\x7d")).filter
        (fun p => !(extractPlaceholders (.vstr "Hola")).contains p) =
        ["\x7b\x7bname\x7d", "\x7b\x7bname\x7d\x7d"] := by decide
    rw [this]

theorem extractPlaceholders_nonstring {v : Value} (hv : ∀ str, v ≠ .vstr str) :
    extractPlaceholders v = [] := by
  cases v <;> first
    | rfl
    | exact absurd rfl (hv _)

theorem verifyLengthSanity_nonstring {v : Value} (hv : ∀ str, v ≠ .vstr str)
    (s : String) (k : String) : verifyLengthSanity (.vstr s) v k = none := by
  cases v <;> first
    | rfl
    | exact absurd rfl (hv _)

theorem verifyPlaceholders_nonstring_translated {v : Value} (hv : ∀ str, v ≠ .vstr str)
    {s : String} (hS : extractPlaceholders (.vstr s) ≠ []) (k : String) :
    verifyPlaceholders (.vstr s) v k =
      some { key := some k, itype := .placeholder, severity := .error
             message := .missingPlaceholders (extractPlaceholders (.vstr s))
             source := some (.vstr s), translated := some v, lang := none } := by
  have hE : extractPlaceholders v = [] := extractPlaceholders_nonstring hv
  have hmiss : (extractPlaceholders (.vstr s)).filter
      (fun p => !(extractPlaceholders v).contains p) = extractPlaceholders (.vstr s) := by
    rw [hE]
    simp
  have hextra : (extractPlaceholders v).filter
      (fun p => !(extractPlaceholders (.vstr s)).contains p) = [] := by
    rw [hE]
    simp
  simp only [verifyPlaceholders, hmiss, hextra]
  rw [if_pos (Or.inl (List.length_pos.mpr hS))]
  rw [if_pos (List.length_pos.mpr hS)]

/-- C10: the placeholder check is total over arbitrary leaf values:
`extractPlaceholders` returns the empty token list for every non-string
input, and `runVerification` runs the placeholder check on every shared
key (not only keys whose two values are both strings), so a shared key
whose source value is a string with placeholder tokens and whose
translated value is not a string yields an error-severity
missing-placeholders issue in the verification output (no exception is
possible: every function of the model is total). -/
theorem placeholder_check_nonstring_total :
    (∀ v : Value, (∀ str, v ≠ .vstr str) → extractPlaceholders v = []) ∧
    (∀ (src tgt : Fields) (lang k s : String) (v : Value),
      lookupKey (flattenObject src "") k = some (.vstr s) →
      lookupKey (flattenObject tgt "") k = some v →
      (∀ str, v ≠ .vstr str) →
      extractPlaceholders (.vstr s) ≠ [] →
      ∃ i ∈ runVerification src tgt lang,
        i.key = some k ∧ i.itype = .placeholder ∧ i.severity = .error ∧
        i.message = .missingPlaceholders (extractPlaceholders (.vstr s)) ∧
        i.lang = some lang) := by
  constructor
  · intro v hv
    exact extractPlaceholders_nonstring hv
  · intro src tgt lang k s v hsrc htgt hv hS
    have hvp := verifyPlaceholders_nonstring_translated hv hS k
    have hvl := verifyLengthSanity_nonstring hv s k
    have hmem : (k, Value.vstr s) ∈ flattenObject src "" := lookupKey_mem hsrc
    refine ⟨{ key := some k, itype := .placeholder, severity := .error
              message := .missingPlaceholders (extractPlaceholders (.vstr s))
              source := some (.vstr s), translated := some v, lang := some lang }, ?_, rfl, rfl,
      rfl, rfl, rfl⟩
    unfold runVerification
    rw [List.mem_append]
    right
    rw [List.mem_flatMap]
    refine ⟨(k, Value.vstr s), hmem, ?_⟩
    rw [show ((k, Value.vstr s).1) = k from rfl]
    rw [htgt]
    simp only [hvp, hvl]
    simp

/-- Witness for C10: source `{a: "Hi {{name}}"}` translated as
`{a: 3}` (a number where a string was expected) produces a
missing-placeholders error for key `a`. -/
theorem placeholder_check_nonstring_total_witness :
    ∃ i ∈ runVerification [("a", Value.vstr "Hi \x7b\x7bname\x7d\x7d")]
        [("a", Value.vnum 3)] "es",
      i.key = some "a" ∧ i.itype = .placeholder ∧ i.severity = .error ∧
      i.message = .missingPlaceholders
        (extractPlaceholders (.vstr "Hi \x7b\x7bname\x7d\x7d")) ∧
      i.lang = some "es" :=
  placeholder_check_nonstring_total.2
    [("a", Value.vstr "Hi \x7b\x7bname\x7d\x7d")] [("a", Value.vnum 3)]
    "es" "a" "Hi \x7b\x7bname\x7d\x7d" (Value.vnum 3)
    (by simp [flattenObject, flattenAux, setKey, joinKey, lookupKey])
    (by simp [flattenObject, flattenAux, setKey, joinKey, lookupKey])
    (by intro str h; exact Value.noConfusion h)
    (by decide)

/-! ## Dot-path segment calculus -/

theorem String.mk_data (s : String) : String.mk s.data = s := by cases s; rfl

theorem string_ext {a b : String} (h : a.data = b.data) : a = b := by
  cases a
  cases b
  rw [show String.mk _ = String.mk _ from congrArg String.mk h]

/-- A usable object key for the dot codec: non-empty and dot-free. -/
def goodKey (s : String) : Prop := s ≠ "" ∧ ∀ c ∈ s.data, c ≠ '.'

/-- Dot-joining of a list of segments (the paths `flattenObject` builds
when every key is non-empty). -/
def joinSegs : List String → String
  | [] => ""
  | [s] => s
  | s :: rest => s ++ "." ++ joinSegs rest

theorem joinSegs_cons_of_ne_nil (s : String) {rest : List String} (h : rest ≠ []) :
    joinSegs (s :: rest) = s ++ "." ++ joinSegs rest := by
  match rest, h with
  | r :: rs, _ => rfl

theorem data_ne_nil_of_ne_empty {s : String} (h : s ≠ "") : s.data ≠ [] := by
  intro hd
  apply h
  rw [← String.mk_data s, hd]

theorem joinSegs_ne_empty {P : List String} (hne : P ≠ [])
    (hgood : ∀ s ∈ P, goodKey s) : joinSegs P ≠ "" := by
  match P, hne with
  | [s], _ =>
    exact (hgood s (by simp)).1
  | s :: r :: rs, _ =>
    rw [joinSegs_cons_of_ne_nil s (by simp)]
    intro hcontra
    have hd := congrArg String.data hcontra
    rw [String.data_append, String.data_append] at hd
    have hs := data_ne_nil_of_ne_empty (hgood s (by simp)).1
    rcases hq : s.data with - | ⟨c, cs⟩
    · exact hs hq
    · rw [hq] at hd
      exact List.noConfusion hd

theorem joinSegs_append_singleton {P : List String} (h : P ≠ []) (k : String) :
    joinSegs (P ++ [k]) = joinSegs P ++ "." ++ k := by
  induction P with
  | nil => exact absurd rfl h
  | cons s rest ih =>
    rcases hr : rest with - | ⟨r, rs⟩
    · rfl
    · rw [← hr]
      have hrne : rest ≠ [] := by rw [hr]; simp
      rw [show (s :: rest) ++ [k] = s :: (rest ++ [k]) from rfl]
      rw [joinSegs_cons_of_ne_nil s (by simp [hr]), joinSegs_cons_of_ne_nil s hrne, ih hrne]
      simp [String.append_assoc]

/-- `joinKey` grows a joined good-segment path by one segment. -/
theorem joinKey_joinSegs {P : List String} (hgood : ∀ s ∈ P, goodKey s) (k : String) :
    joinKey (joinSegs P) k = joinSegs (P ++ [k]) := by
  rcases hP : P with - | ⟨s, rest⟩
  · rfl
  · rw [← hP]
    have hne : P ≠ [] := by rw [hP]; simp
    rw [joinKey, if_neg (joinSegs_ne_empty hne hgood), joinSegs_append_singleton hne]

theorem splitDotAux_no_dot :
    ∀ (l cur : List Char), (∀ c ∈ l, c ≠ '.') →
    splitDotAux l cur = [String.mk (cur.reverse ++ l)] := by
  intro l
  induction l with
  | nil => intro cur _; simp [splitDotAux]
  | cons c rest ih =>
    intro cur h
    have hc : c ≠ '.' := h c (by simp)
    rw [splitDotAux, if_neg hc, ih (c :: cur) (fun x hx => h x (by simp [hx]))]
    simp

theorem splitDotAux_dot_append :
    ∀ (l cur m : List Char), (∀ c ∈ l, c ≠ '.') →
    splitDotAux (l ++ '.' :: m) cur = String.mk (cur.reverse ++ l) :: splitDotAux m [] := by
  intro l
  induction l with
  | nil => intro cur m _; simp [splitDotAux]
  | cons c rest ih =>
    intro cur m h
    have hc : c ≠ '.' := h c (by simp)
    rw [List.cons_append, splitDotAux, if_neg hc,
      ih (c :: cur) m (fun x hx => h x (by simp [hx]))]
    simp

theorem splitDot_joinSegs :
    ∀ (P : List String), P ≠ [] → (∀ s ∈ P, goodKey s) →
    splitDot (joinSegs P) = P := by
  intro P
  induction P with
  | nil => intro h _; exact absurd rfl h
  | cons s rest ih =>
    intro _ hgood
    rcases hr : rest with - | ⟨r, rs⟩
    · rw [show joinSegs [s] = s from rfl, splitDot,
        splitDotAux_no_dot s.data [] (hgood s (by simp)).2]
      simp [String.mk_data]
    · rw [← hr]
      have hrne : rest ≠ [] := by rw [hr]; simp
      rw [joinSegs_cons_of_ne_nil s hrne, splitDot]
      have hdata : (s ++ "." ++ joinSegs rest).data =
          s.data ++ '.' :: (joinSegs rest).data := by
        rw [String.data_append, String.data_append]
        simp [show ("." : String).data = ['.'] from rfl]
      rw [hdata, splitDotAux_dot_append s.data [] (joinSegs rest).data
        (hgood s (by simp)).2]
      rw [show splitDotAux (joinSegs rest).data [] = splitDot (joinSegs rest) from rfl]
      rw [ih hrne (fun x hx => hgood x (by simp [hx]))]
      simp [String.mk_data]

theorem joinSegs_inj {A B : List String} (hA : A ≠ []) (hB : B ≠ [])
    (hgA : ∀ s ∈ A, goodKey s) (hgB : ∀ s ∈ B, goodKey s)
    (h : joinSegs A = joinSegs B) : A = B := by
  rw [← splitDot_joinSegs A hA hgA, ← splitDot_joinSegs B hB hgB, h]

/-- Segment-level view of the flat map of a tree: the list of
(segment-path, leaf) pairs in emission order. -/
def segFlat : Fields → List (List String × Value)
  | [] => []
  | (k, .vobj sub) :: rest => (segFlat sub).map (fun q => (k :: q.1, q.2)) ++ segFlat rest
  | (k, v) :: rest => ([k], v) :: segFlat rest
  termination_by fields => sizeOf fields

theorem segFlat_nil : segFlat [] = [] := by simp [segFlat]

theorem segFlat_cons_obj (k : String) (sub rest : Fields) :
    segFlat ((k, .vobj sub) :: rest) =
      (segFlat sub).map (fun q => (k :: q.1, q.2)) ++ segFlat rest := by
  simp [segFlat]

theorem segFlat_cons_leaf {v : Value} (hv : ∀ sub, v ≠ .vobj sub) (k : String)
    (rest : Fields) : segFlat ((k, v) :: rest) = ([k], v) :: segFlat rest := by
  cases v <;> first
    | exact absurd rfl (hv _)
    | simp [segFlat]

def goodKeyB (s : String) : Bool := (s != "") && s.data.all (fun c => c != '.')

theorem goodKeyB_iff {s : String} : goodKeyB s = true ↔ goodKey s := by
  simp [goodKeyB, goodKey, List.all_eq_true]

mutual

/-- Well-formedness of a locale tree for the round trip: at every level
the keys are pairwise distinct (true of every genuine JS object),
non-empty and dot-free, and no value is an empty mapping. -/
def wfFields : Fields → Bool
  | [] => true
  | (k, v) :: rest =>
    goodKeyB k && !((keysOf rest).contains k) && wfValueB v && wfFields rest

def wfValueB : Value → Bool
  | .vobj sub => !sub.isEmpty && wfFields sub
  | _ => true

end

theorem wfFields_nil : wfFields [] = true := by simp [wfFields]

theorem wfValueB_leaf {v : Value} (hv : ∀ sub, v ≠ .vobj sub) : wfValueB v = true := by
  cases v <;> first
    | rfl
    | exact absurd rfl (hv _)

theorem wfFields_cons {k : String} {v : Value} {rest : Fields}
    (h : wfFields ((k, v) :: rest) = true) :
    goodKey k ∧ k ∉ keysOf rest ∧ wfValueB v = true ∧ wfFields rest = true := by
  rw [wfFields] at h
  simp only [Bool.and_eq_true] at h
  refine ⟨goodKeyB_iff.mp h.1.1.1, ?_, h.1.2, h.2⟩
  intro hmem
  have hc : (keysOf rest).contains k = true := List.elem_iff.mpr hmem
  have := h.1.1.2
  rw [hc] at this
  simp at this

theorem wfFields_cons_obj {k : String} {sub rest : Fields}
    (h : wfFields ((k, .vobj sub) :: rest) = true) :
    sub ≠ [] ∧ wfFields sub = true := by
  have hv := (wfFields_cons h).2.2.1
  rw [wfValueB] at hv
  simp only [Bool.and_eq_true] at hv
  refine ⟨?_, hv.2⟩
  intro hcontra
  have := hv.1
  rw [hcontra] at this
  simp at this

theorem segFlat_paths_ne_nil :
    ∀ (fields : Fields), ∀ q ∈ segFlat fields, q.1 ≠ [] := by
  intro fields
  induction fields with
  | nil => intro q hq; rw [segFlat_nil] at hq; simp at hq
  | cons a rest ih =>
    obtain ⟨k, v⟩ := a
    intro q hq
    match v with
    | .vobj sub =>
      rw [segFlat_cons_obj] at hq
      rcases List.mem_append.mp hq with hl | hr
      · obtain ⟨q', -, rfl⟩ := List.mem_map.mp hl
        simp
      · exact ih q hr
    | .vnull | .vbool _ | .vnum _ | .vstr _ | .varr _ =>
      rw [segFlat_cons_leaf (by intro s h; exact Value.noConfusion h)] at hq
      rcases List.mem_cons.mp hq with rfl | hr
      · simp
      · exact ih q hr

theorem segFlat_heads :
    ∀ (fields : Fields), ∀ q ∈ segFlat fields,
      ∃ h t, q.1 = h :: t ∧ h ∈ keysOf fields := by
  intro fields
  induction fields with
  | nil => intro q hq; rw [segFlat_nil] at hq; simp at hq
  | cons a rest ih =>
    obtain ⟨k, v⟩ := a
    intro q hq
    match v with
    | .vobj sub =>
      rw [segFlat_cons_obj] at hq
      rcases List.mem_append.mp hq with hl | hr
      · obtain ⟨q', -, rfl⟩ := List.mem_map.mp hl
        exact ⟨k, q'.1, rfl, by simp [keysOf_cons]⟩
      · obtain ⟨h, t, hq1, hmem⟩ := ih q hr
        exact ⟨h, t, hq1, by simp [keysOf_cons, hmem]⟩
    | .vnull | .vbool _ | .vnum _ | .vstr _ | .varr _ =>
      rw [segFlat_cons_leaf (by intro s h; exact Value.noConfusion h)] at hq
      rcases List.mem_cons.mp hq with rfl | hr
      · exact ⟨k, [], rfl, by simp [keysOf_cons]⟩
      · obtain ⟨h, t, hq1, hmem⟩ := ih q hr
        exact ⟨h, t, hq1, by simp [keysOf_cons, hmem]⟩

theorem segFlat_good_aux (n : Nat) :
    ∀ fields : Fields, sizeOf fields < n → wfFields fields = true →
      ∀ q ∈ segFlat fields, ∀ s ∈ q.1, goodKey s := by
  induction n with
  | zero => intro fields h; exact absurd h (Nat.not_lt_zero _)
  | succ n ih =>
    intro fields hsz hwf q hq s hs
    match fields with
    | [] => rw [segFlat_nil] at hq; simp at hq
    | (k, v) :: rest =>
      obtain ⟨hgk, hknm, -, hwrest⟩ := wfFields_cons hwf
      match v with
      | .vobj sub =>
        obtain ⟨-, hwsub⟩ := wfFields_cons_obj hwf
        rw [segFlat_cons_obj] at hq
        rcases List.mem_append.mp hq with hl | hr
        · obtain ⟨q', hq', rfl⟩ := List.mem_map.mp hl
          rcases List.mem_cons.mp hs with rfl | hs'
          · exact hgk
          · exact ih sub (by simp at hsz ⊢; omega) hwsub q' hq' s hs'
        · exact ih rest (by simp at hsz ⊢; omega) hwrest q hr s hs
      | .vnull | .vbool _ | .vnum _ | .vstr _ | .varr _ =>
        rw [segFlat_cons_leaf (by intro t ht; exact Value.noConfusion ht)] at hq
        rcases List.mem_cons.mp hq with rfl | hr
        · rcases List.mem_cons.mp hs with rfl | hs'
          · exact hgk
          · simp at hs'
        · exact ih rest (by simp at hsz ⊢; omega) hwrest q hr s hs

theorem segFlat_good {fields : Fields} (hwf : wfFields fields = true) :
    ∀ q ∈ segFlat fields, ∀ s ∈ q.1, goodKey s :=
  segFlat_good_aux (sizeOf fields + 1) fields (Nat.lt_succ_self _) hwf

theorem segFlat_ne_nil_aux (n : Nat) :
    ∀ fields : Fields, sizeOf fields < n → wfFields fields = true →
      fields ≠ [] → segFlat fields ≠ [] := by
  induction n with
  | zero => intro fields h; exact absurd h (Nat.not_lt_zero _)
  | succ n ih =>
    intro fields hsz hwf hne
    match fields with
    | [] => exact absurd rfl hne
    | (k, v) :: rest =>
      match v with
      | .vobj sub =>
        obtain ⟨hsubne, hwsub⟩ := wfFields_cons_obj hwf
        rw [segFlat_cons_obj]
        have hsne : segFlat sub ≠ [] := ih sub (by simp at hsz ⊢; omega) hwsub hsubne
        intro hcontra
        rw [List.append_eq_nil] at hcontra
        rw [List.map_eq_nil] at hcontra
        exact hsne hcontra.1
      | .vnull | .vbool _ | .vnum _ | .vstr _ | .varr _ =>
        rw [segFlat_cons_leaf (by intro t ht; exact Value.noConfusion ht)]
        simp

theorem segFlat_ne_nil {fields : Fields} (hwf : wfFields fields = true)
    (hne : fields ≠ []) : segFlat fields ≠ [] :=
  segFlat_ne_nil_aux (sizeOf fields + 1) fields (Nat.lt_succ_self _) hwf hne

theorem segFlat_nodup_aux (n : Nat) :
    ∀ fields : Fields, sizeOf fields < n → wfFields fields = true →
      ((segFlat fields).map Prod.fst).Nodup := by
  induction n with
  | zero => intro fields h; exact absurd h (Nat.not_lt_zero _)
  | succ n ih =>
    intro fields hsz hwf
    match fields with
    | [] => rw [segFlat_nil]; simp
    | (k, v) :: rest =>
      obtain ⟨hgk, hknm, -, hwrest⟩ := wfFields_cons hwf
      match v with
      | .vobj sub =>
        obtain ⟨-, hwsub⟩ := wfFields_cons_obj hwf
        rw [segFlat_cons_obj, List.map_append, List.nodup_append]
        refine ⟨?_, ih rest (by simp at hsz ⊢; omega) hwrest, ?_⟩
        · rw [List.map_map]
          have hsub := ih sub (by simp at hsz ⊢; omega) hwsub
          have hcomp : (Prod.fst ∘ fun q : List String × Value => (k :: q.1, q.2)) =
              (fun p => k :: p) ∘ Prod.fst := by
            funext q
            rfl
          rw [hcomp, ← List.map_map]
          exact hsub.map (fun p₁ p₂ h => (List.cons.injEq .. ▸ h).2)
        · intro x hx hx'
          rw [List.map_map] at hx
          obtain ⟨q', -, rfl⟩ := List.mem_map.mp hx
          obtain ⟨q, hq, hfst⟩ := List.mem_map.mp hx'
          obtain ⟨h, t, hq1, hmem⟩ := segFlat_heads rest q hq
          rw [hq1] at hfst
          have : h = k := (List.cons.injEq .. ▸ hfst).1
          rw [this] at hmem
          exact hknm hmem
      | .vnull | .vbool _ | .vnum _ | .vstr _ | .varr _ =>
        rw [segFlat_cons_leaf (by intro t ht; exact Value.noConfusion ht),
          List.map_cons, List.nodup_cons]
        refine ⟨?_, ih rest (by simp at hsz ⊢; omega) hwrest⟩
        intro hx
        obtain ⟨q, hq, hfst⟩ := List.mem_map.mp hx
        obtain ⟨h, t, hq1, hmem⟩ := segFlat_heads rest q hq
        rw [hq1] at hfst
        have hk : h = k := (List.cons.injEq .. ▸ hfst).1
        rw [hk] at hmem
        exact hknm hmem

theorem segFlat_nodup {fields : Fields} (hwf : wfFields fields = true) :
    ((segFlat fields).map Prod.fst).Nodup :=
  segFlat_nodup_aux (sizeOf fields + 1) fields (Nat.lt_succ_self _) hwf

theorem append_singleton_append_ne_nil (P : List String) (k : String) (p : List String) :
    (P ++ [k]) ++ p ≠ [] := by
  simp

theorem mem_append_singleton_append {s : String} {P : List String} {k : String}
    {p : List String} (hs : s ∈ (P ++ [k]) ++ p)
    (hP : ∀ x ∈ P, goodKey x) (hk : goodKey k) (hp : ∀ x ∈ p, goodKey x) :
    goodKey s := by
  rcases List.mem_append.mp hs with h | h
  · rcases List.mem_append.mp h with h' | h'
    · exact hP s h'
    · rw [List.mem_singleton] at h'
      rw [h']
      exact hk
  · exact hp s h

theorem flattenAux_eq_segFlat_aux (n : Nat) :
    ∀ fields : Fields, sizeOf fields < n →
    ∀ (P : List String) (acc : Fields),
      wfFields fields = true →
      (∀ s ∈ P, goodKey s) →
      (∀ q ∈ segFlat fields, joinSegs (P ++ q.1) ∉ keysOf acc) →
      flattenAux fields (joinSegs P) acc =
        acc ++ (segFlat fields).map (fun q => (joinSegs (P ++ q.1), q.2)) := by
  induction n with
  | zero => intro fields h; exact absurd h (Nat.not_lt_zero _)
  | succ n ih =>
    intro fields hsz P acc hwf hgood hfresh
    match fields with
    | [] => rw [flattenAux_nil, segFlat_nil]; simp
    | (k, v) :: rest =>
      obtain ⟨hgk, hknm, -, hwrest⟩ := wfFields_cons hwf
      have hPk : ∀ s ∈ P ++ [k], goodKey s := by
        intro s hs
        rcases List.mem_append.mp hs with h | h
        · exact hgood s h
        · rw [List.mem_singleton] at h
          rw [h]
          exact hgk
      by_cases hvo : ∃ sub, v = Value.vobj sub
      all_goals try obtain ⟨sub, rfl⟩ := hvo
      case pos =>
        obtain ⟨-, hwsub⟩ := wfFields_cons_obj hwf
        have hsgood := segFlat_good hwsub
        have hrgood := segFlat_good hwrest
        rw [flattenAux_cons_obj, joinKey_joinSegs hgood]
        have hinner := ih sub (by simp at hsz ⊢; omega) (P ++ [k]) [] hwsub hPk
          (by simp [keysOf])
        rw [hinner, List.nil_append]
        have hqmem : ∀ q ∈ segFlat sub,
            (k :: q.1, q.2) ∈ segFlat ((k, Value.vobj sub) :: rest) := by
          intro q hq
          rw [segFlat_cons_obj]
          exact List.mem_append_left _ (List.mem_map.mpr ⟨q, hq, rfl⟩)
        have hjoin_eq : ∀ q : List String × Value,
            joinSegs ((P ++ [k]) ++ q.1) = joinSegs (P ++ (k :: q.1)) := by
          intro q
          rw [List.append_assoc]
          rfl
        have hfresh_inner : ∀ kv ∈ (segFlat sub).map
            (fun q => (joinSegs ((P ++ [k]) ++ q.1), q.2)), kv.1 ∉ keysOf acc := by
          intro kv hkv
          obtain ⟨q, hq, rfl⟩ := List.mem_map.mp hkv
          rw [hjoin_eq q]
          exact hfresh _ (hqmem q hq)
        have hkeys_inner : keysOf ((segFlat sub).map
            (fun q => (joinSegs ((P ++ [k]) ++ q.1), q.2))) =
            ((segFlat sub).map Prod.fst).map (fun p => joinSegs ((P ++ [k]) ++ p)) := by
          rw [keysOf, List.map_map, List.map_map]
          rfl
        have hnd_inner : (keysOf ((segFlat sub).map
            (fun q => (joinSegs ((P ++ [k]) ++ q.1), q.2)))).Nodup := by
          rw [hkeys_inner]
          refine (segFlat_nodup hwsub).map_on ?_
          intro p₁ hp₁ p₂ hp₂ hjeq
          obtain ⟨q₁, hq₁, rfl⟩ := List.mem_map.mp hp₁
          obtain ⟨q₂, hq₂, rfl⟩ := List.mem_map.mp hp₂
          have h12 : (P ++ [k]) ++ q₁.1 = (P ++ [k]) ++ q₂.1 :=
            joinSegs_inj (append_singleton_append_ne_nil P k q₁.1)
              (append_singleton_append_ne_nil P k q₂.1)
              (fun s hs => mem_append_singleton_append hs hgood hgk (hsgood q₁ hq₁))
              (fun s hs => mem_append_singleton_append hs hgood hgk (hsgood q₂ hq₂))
              hjeq
          exact List.append_cancel_left h12
        rw [assignList_append hfresh_inner hnd_inner]
        have hfresh_rest : ∀ q ∈ segFlat rest, joinSegs (P ++ q.1) ∉
            keysOf (acc ++ (segFlat sub).map
              (fun q => (joinSegs ((P ++ [k]) ++ q.1), q.2))) := by
          intro q hq
          rw [keysOf_append, List.mem_append]
          push_neg
          constructor
          · refine hfresh _ ?_
            rw [segFlat_cons_obj]
            exact List.mem_append_right _ hq
          · rw [hkeys_inner]
            intro hx
            obtain ⟨p', hp', hjeq⟩ := List.mem_map.mp hx
            obtain ⟨q', hq', rfl⟩ := List.mem_map.mp hp'
            obtain ⟨hh, ht, hq1, hmem⟩ := segFlat_heads rest q hq
            have heq2 : P ++ q.1 = (P ++ [k]) ++ q'.1 :=
              joinSegs_inj
                (by rw [hq1]; simp)
                (append_singleton_append_ne_nil P k q'.1)
                (by
                  intro s hs
                  rcases List.mem_append.mp hs with h | h
                  · exact hgood s h
                  · exact hrgood q hq s h)
                (fun s hs => mem_append_singleton_append hs hgood hgk (hsgood q' hq'))
                hjeq.symm
            rw [List.append_assoc] at heq2
            have hq1k : q.1 = k :: q'.1 := List.append_cancel_left heq2
            rw [hq1] at hq1k
            have : hh = k := (List.cons.injEq .. ▸ hq1k).1
            rw [this] at hmem
            exact hknm hmem
        rw [ih rest (by simp at hsz ⊢; omega) P _ hwrest hgood hfresh_rest]
        rw [segFlat_cons_obj, List.map_append, List.map_map]
        have hfun : ((fun q : List String × Value => (joinSegs (P ++ q.1), q.2)) ∘
            (fun q : List String × Value => (k :: q.1, q.2))) =
            (fun q : List String × Value => (joinSegs ((P ++ [k]) ++ q.1), q.2)) := by
          funext q
          simp only [Function.comp_apply]
          rw [hjoin_eq q]
        rw [hfun, List.append_assoc]
      case neg =>
        have hv : ∀ sub, v ≠ Value.vobj sub := by
          push_neg at hvo
          exact hvo
        rw [flattenAux_cons_leaf hv, joinKey_joinSegs hgood]
        rw [segFlat_cons_leaf hv]
        have hkmem : (([k] : List String), v) ∈ segFlat ((k, v) :: rest) := by
          rw [segFlat_cons_leaf hv]
          exact List.mem_cons_self _ _
        have hfresh_k : joinSegs (P ++ [k]) ∉ keysOf acc := hfresh _ hkmem
        rw [setKey_of_not_mem hfresh_k]
        have hrgood := segFlat_good hwrest
        have hfresh_rest : ∀ q ∈ segFlat rest,
            joinSegs (P ++ q.1) ∉ keysOf (acc ++ [(joinSegs (P ++ [k]), v)]) := by
          intro q hq
          rw [keysOf_append, List.mem_append]
          push_neg
          constructor
          · refine hfresh _ ?_
            rw [segFlat_cons_leaf hv]
            exact List.mem_cons_of_mem _ hq
          · rw [show keysOf [(joinSegs (P ++ [k]), v)] = [joinSegs (P ++ [k])] from rfl,
              List.mem_singleton]
            intro hjeq
            obtain ⟨hh, ht, hq1, hmem⟩ := segFlat_heads rest q hq
            have heq2 : P ++ q.1 = P ++ [k] :=
              joinSegs_inj
                (by rw [hq1]; simp)
                (by simp)
                (by
                  intro s hs
                  rcases List.mem_append.mp hs with h | h
                  · exact hgood s h
                  · exact hrgood q hq s h)
                hPk
                hjeq
            have hq1k : q.1 = [k] := List.append_cancel_left heq2
            rw [hq1] at hq1k
            have : hh = k := (List.cons.injEq .. ▸ hq1k).1
            rw [this] at hmem
            exact hknm hmem
        rw [ih rest (by simp at hsz ⊢; omega) P _ hwrest hgood hfresh_rest]
        simp [List.append_assoc]

theorem flattenObject_eq_segFlat {fields : Fields} (hwf : wfFields fields = true) :
    flattenObject fields "" = (segFlat fields).map (fun q => (joinSegs q.1, q.2)) := by
  have h := flattenAux_eq_segFlat_aux (sizeOf fields + 1) fields (Nat.lt_succ_self _) [] []
    hwf (by simp) (by simp [keysOf])
  rw [show joinSegs ([] : List String) = "" from rfl] at h
  rw [flattenObject]
  rw [h]
  simp

/-! ## Unflatten: segment-level processing -/

def segLoop (acc : Fields) (L : List (List String × Value)) : Fields :=
  L.foldl (fun a q => insertPath a q.1 q.2) acc

theorem segLoop_nil (acc : Fields) : segLoop acc [] = acc := rfl

theorem segLoop_cons (acc : Fields) (q : List String × Value)
    (L : List (List String × Value)) :
    segLoop acc (q :: L) = segLoop (insertPath acc q.1 q.2) L := rfl

theorem segLoop_append (acc : Fields) (A B : List (List String × Value)) :
    segLoop acc (A ++ B) = segLoop (segLoop acc A) B := by
  simp [segLoop, List.foldl_append]

theorem unflattenObject_map_joined :
    ∀ (L : List (List String × Value)) (acc : Fields),
      (∀ q ∈ L, q.1 ≠ [] ∧ ∀ s ∈ q.1, goodKey s) →
      (L.map (fun q => (joinSegs q.1, q.2))).foldl
        (fun result kv => insertPath result (splitDot kv.1) kv.2) acc = segLoop acc L := by
  intro L
  induction L with
  | nil => intro acc _; rfl
  | cons q L ih =>
    intro acc h
    obtain ⟨hne, hgood⟩ := h q (by simp)
    simp only [List.map_cons, List.foldl_cons]
    rw [splitDot_joinSegs q.1 hne hgood]
    exact ih _ (fun q' hq' => h q' (by simp [hq']))

theorem setKey_append_last {acc : Fields} {k : String} (hk : k ∉ keysOf acc)
    (x y : Value) : setKey (acc ++ [(k, x)]) k y = acc ++ [(k, y)] := by
  induction acc with
  | nil => simp [setKey]
  | cons a acc ih =>
    obtain ⟨k', v'⟩ := a
    simp only [keysOf_cons, List.mem_cons] at hk
    push_neg at hk
    simp only [List.cons_append, setKey, Ne.symm hk.1, if_false]
    show (k', v') :: setKey (acc ++ [(k, x)]) k y = (k', v') :: (acc ++ [(k, y)])
    rw [ih hk.2]

theorem insertPath_into_group {acc : Fields} {k : String} (hk : k ∉ keysOf acc)
    (u : Fields) {p : List String} (hp : p ≠ []) (v : Value) :
    insertPath (acc ++ [(k, .vobj u)]) (k :: p) v =
      acc ++ [(k, .vobj (insertPath u p v))] := by
  match p, hp with
  | p1 :: ps, _ =>
    have hlook : lookupKey (acc ++ [(k, Value.vobj u)]) k = some (.vobj u) := by
      rw [lookupKey_append_right _ hk]
      simp [lookupKey]
    simp only [insertPath, hlook, truthy, if_true]
    rw [setKey_append_last hk]

theorem insertPath_fresh {acc : Fields} {k : String} (hk : k ∉ keysOf acc)
    {p : List String} (hp : p ≠ []) (v : Value) :
    insertPath acc (k :: p) v = acc ++ [(k, .vobj (insertPath [] p v))] := by
  match p, hp with
  | p1 :: ps, _ =>
    have hlook : lookupKey acc k = none := lookupKey_eq_none_iff.mpr hk
    simp only [insertPath, hlook]
    rw [setKey_of_not_mem hk]

theorem segLoop_group' :
    ∀ (P : List (List String × Value)) (acc : Fields) (k : String) (u : Fields),
      k ∉ keysOf acc → (∀ q ∈ P, q.1 ≠ []) →
      segLoop (acc ++ [(k, .vobj u)]) (P.map (fun q => (k :: q.1, q.2))) =
        acc ++ [(k, .vobj (segLoop u P))] := by
  intro P
  induction P with
  | nil => intro acc k u _ _; rfl
  | cons q P ih =>
    intro acc k u hk hne
    simp only [List.map_cons]
    rw [segLoop_cons]
    rw [show ((k :: q.1, q.2) : List String × Value).1 = k :: q.1 from rfl]
    rw [show ((k :: q.1, q.2) : List String × Value).2 = q.2 from rfl]
    rw [insertPath_into_group hk u (hne q (by simp)) q.2]
    rw [ih _ k _ hk (fun q' hq' => hne q' (by simp [hq']))]
    rw [segLoop_cons]

theorem segLoop_group :
    ∀ (P : List (List String × Value)) (acc : Fields) (k : String),
      k ∉ keysOf acc → P ≠ [] → (∀ q ∈ P, q.1 ≠ []) →
      segLoop acc (P.map (fun q => (k :: q.1, q.2))) =
        acc ++ [(k, .vobj (segLoop [] P))] := by
  intro P acc k hk hPne hne
  match P, hPne with
  | q0 :: P', _ =>
    simp only [List.map_cons]
    rw [segLoop_cons]
    rw [show ((k :: q0.1, q0.2) : List String × Value).1 = k :: q0.1 from rfl]
    rw [show ((k :: q0.1, q0.2) : List String × Value).2 = q0.2 from rfl]
    rw [insertPath_fresh hk (hne q0 (by simp)) q0.2]
    rw [segLoop_group' P' acc k _ hk (fun q' hq' => hne q' (by simp [hq']))]
    rw [show segLoop [] (q0 :: P') = segLoop (insertPath [] q0.1 q0.2) P' from rfl]

theorem segLoop_segFlat_aux (n : Nat) :
    ∀ fields : Fields, sizeOf fields < n → ∀ acc : Fields,
      wfFields fields = true →
      (∀ k ∈ keysOf fields, k ∉ keysOf acc) →
      segLoop acc (segFlat fields) = acc ++ fields := by
  induction n with
  | zero => intro fields h; exact absurd h (Nat.not_lt_zero _)
  | succ n ih =>
    intro fields hsz acc hwf hdisj
    match fields with
    | [] => rw [segFlat_nil, segLoop_nil]; simp
    | (k, v) :: rest =>
      obtain ⟨hgk, hknm, -, hwrest⟩ := wfFields_cons hwf
      have hkacc : k ∉ keysOf acc := hdisj k (by simp [keysOf_cons])
      have hdisj' : ∀ k' ∈ keysOf rest, k' ∉ keysOf (acc ++ [(k, v)]) := by
        intro k' hk'
        rw [keysOf_append, List.mem_append]
        push_neg
        refine ⟨hdisj k' (by simp [keysOf_cons, hk']), ?_⟩
        rw [show keysOf [(k, v)] = [k] from rfl, List.mem_singleton]
        rintro rfl
        exact hknm hk'
      by_cases hvo : ∃ sub, v = Value.vobj sub
      · obtain ⟨sub, rfl⟩ := hvo
        obtain ⟨hsubne, hwsub⟩ := wfFields_cons_obj hwf
        rw [segFlat_cons_obj, segLoop_append]
        rw [segLoop_group (segFlat sub) acc k hkacc (segFlat_ne_nil hwsub hsubne)
          (segFlat_paths_ne_nil sub)]
        rw [ih sub (by simp at hsz ⊢; omega) [] hwsub (by simp [keysOf])]
        rw [List.nil_append]
        rw [ih rest (by simp at hsz ⊢; omega) (acc ++ [(k, Value.vobj sub)]) hwrest hdisj']
        simp
      · have hv : ∀ sub, v ≠ Value.vobj sub := by
          push_neg at hvo
          exact hvo
        rw [segFlat_cons_leaf hv, segLoop_cons]
        rw [show insertPath acc [k] v = setKey acc k v from rfl]
        rw [setKey_of_not_mem hkacc]
        rw [ih rest (by simp at hsz ⊢; omega) (acc ++ [(k, v)]) hwrest hdisj']
        simp

/-- Counterexample for C3 as stated.  Two trees without any literal-dot
key fail the round trip: `{a: {}}` (the empty mapping contributes no flat
entry, so unflattening loses it) and `{"": {b: "1"}}` (the empty root key
is falsy as a prefix, so its children flatten as if at the root). -/
theorem flatten_unflatten_counterexample :
    unflattenObject (flattenObject [("a", Value.vobj [])] "") = [] ∧
    ([] : Fields) ≠ [("a", Value.vobj [])] ∧
    unflattenObject (flattenObject [("", Value.vobj [("b", Value.vstr "1")])] "") =
      [("b", Value.vstr "1")] ∧
    ([("b", Value.vstr "1")] : Fields) ≠ [("", Value.vobj [("b", Value.vstr "1")])] := by
  have h1 : flattenObject [("a", Value.vobj [])] "" = [] := by
    simp [flattenObject, flattenAux, assignList]
  have h2 : flattenObject [("", Value.vobj [("b", Value.vstr "1")])] "" =
      [("b", Value.vstr "1")] := by
    simp [flattenObject, flattenAux, assignList, setKey, joinKey]
  refine ⟨?_, by simp, ?_, by simp⟩
  · rw [h1]
    rfl
  · rw [h2]
    rfl

/-- C3, amended: for every locale tree whose keys — at every nesting
depth — are pairwise distinct (as in any genuine JS object), non-empty
and free of the literal '.' character, and which contains no
empty-mapping subtree, `unflattenObject (flattenObject t)` is
structurally equal to `t`: same nesting shape, same leaf values, same
order. -/
theorem flatten_unflatten_roundTrip (t : Fields) (hwf : wfFields t = true) :
    unflattenObject (flattenObject t "") = t := by
  rw [flattenObject_eq_segFlat hwf]
  rw [unflattenObject]
  rw [unflattenObject_map_joined (segFlat t) []
    (fun q hq => ⟨segFlat_paths_ne_nil t q hq, segFlat_good hwf q hq⟩)]
  have h := segLoop_segFlat_aux (sizeOf t + 1) t (Nat.lt_succ_self _) [] hwf
    (by simp [keysOf])
  rw [h]
  rfl

/-- Witness for the amended C3 at the nested tree
`{a: {b: "hi", c: "x"}, d: "y"}`. -/
theorem flatten_unflatten_roundTrip_witness :
    unflattenObject (flattenObject
      [("a", Value.vobj [("b", Value.vstr "hi"), ("c", Value.vstr "x")]),
       ("d", Value.vstr "y")] "") =
      [("a", Value.vobj [("b", Value.vstr "hi"), ("c", Value.vstr "x")]),
       ("d", Value.vstr "y")] :=
  flatten_unflatten_roundTrip
    [("a", Value.vobj [("b", Value.vstr "hi"), ("c", Value.vstr "x")]),
     ("d", Value.vstr "y")]
    (by simp [wfFields, wfValueB, goodKeyB, keysOf])

/-- Counterexample for C8 as stated.  With the scalar prefix entry first
(`{"a": "x", "a.b": "y"}`), the later entry `a.b` does not override: the
walk meets the truthy string at `a`, the JS property write through the
primitive is silently lost, and the result keeps `a = "x"` instead of
the claimed later-entry value `{b: "y"}`. -/
theorem unflatten_collision_counterexample :
    unflattenObject [("a", Value.vstr "x"), ("a.b", Value.vstr "y")] =
      [("a", Value.vstr "x")] ∧
    ([("a", Value.vstr "x")] : Fields) ≠ [("a", Value.vobj [("b", Value.vstr "y")])] := by
  constructor
  · rfl
  · simp

/-- C8, amended: for an ambiguous collision between a dot-free key `k`
holding a truthy non-mapping value and the longer path `k.m`, the entry
processed later wins only in the order where the longer path comes
first (the later scalar entry replaces the built subtree); in the other
order the earlier truthy scalar stays and the later longer-path entry is
silently discarded (the JS write through the primitive is lost), so the
result is `{k: v}` in both orders. -/
theorem unflatten_collision_behavior (k m : String) (hk : goodKey k) (hm : goodKey m)
    (v : Value) (htr : truthy v = true) (hv : ∀ sub, v ≠ .vobj sub) (w : Value) :
    unflattenObject [(k ++ "." ++ m, w), (k, v)] = [(k, v)] ∧
    unflattenObject [(k, v), (k ++ "." ++ m, w)] = [(k, v)] := by
  have hgood2 : ∀ s ∈ [k, m], goodKey s := by
    intro s hs
    rcases List.mem_cons.mp hs with rfl | hs'
    · exact hk
    · rw [List.mem_singleton] at hs'
      rw [hs']
      exact hm
  have hsplit : splitDot (k ++ "." ++ m) = [k, m] := by
    have h := splitDot_joinSegs [k, m] (by simp) hgood2
    rw [show joinSegs [k, m] = k ++ "." ++ m from rfl] at h
    exact h
  have hsplitk : splitDot k = [k] := by
    have h := splitDot_joinSegs [k] (by simp)
      (by intro s hs; rw [List.mem_singleton] at hs; rw [hs]; exact hk)
    rw [show joinSegs [k] = k from rfl] at h
    exact h
  constructor
  · rw [unflattenObject]
    simp only [List.foldl_cons, List.foldl_nil]
    rw [hsplit, hsplitk]
    rw [insertPath_fresh (by simp [keysOf]) (by simp) w]
    rw [show insertPath ([] : Fields) [m] w = [(m, w)] from rfl]
    rw [List.nil_append]
    rw [show insertPath [(k, Value.vobj [(m, w)])] [k] v =
      setKey [(k, Value.vobj [(m, w)])] k v from rfl]
    simp [setKey]
  · rw [unflattenObject]
    simp only [List.foldl_cons, List.foldl_nil]
    rw [hsplitk, hsplit]
    rw [show insertPath ([] : Fields) [k] v = setKey [] k v from rfl]
    rw [show setKey ([] : Fields) k v = [(k, v)] from rfl]
    have hlook : lookupKey [(k, v)] k = some v := by simp [lookupKey]
    show insertPath [(k, v)] (k :: m :: []) w = [(k, v)]
    simp only [insertPath, hlook, htr, if_true]

/-- Witness for the amended C8 at `k = "a"`, `m = "b"`, `v = "x"`,
`w = "y"`. -/
theorem unflatten_collision_behavior_witness :
    unflattenObject [("a" ++ "." ++ "b", Value.vstr "y"), ("a", Value.vstr "x")] =
      [("a", Value.vstr "x")] ∧
    unflattenObject [("a", Value.vstr "x"), ("a" ++ "." ++ "b", Value.vstr "y")] =
      [("a", Value.vstr "x")] :=
  unflatten_collision_behavior "a" "b" (goodKeyB_iff.mp (by decide))
    (goodKeyB_iff.mp (by decide)) (Value.vstr "x")
    (by decide) (by intro sub h; exact Value.noConfusion h) (Value.vstr "y")
